import Mathlib

/-!
# Nvm: named strings in EEPROM

A shallow embedding of `src/src/Nvm.cpp` / `src/src/Nvm.h` (maarten-pennings/Nvm) and
theorems relating it to the natural-language specification.

Modelling conventions

* A byte (`uint8_t`, `char`) is a `Fin 256`.
* A C string argument (`const char*`) is the list of bytes found in memory from the pointer
  on; `strlen` counts the bytes before the first zero, and the end of the list stands for
  the terminating zero.
* `int` and `unsigned int` are 32 bits wide (the ESP8266/ESP32 Arduino cores, the ones whose
  `EEPROM` has `begin(size)` and `commit()`).  The field start table is computed with the
  wrap-around of that arithmetic (`wrapInt`).  The increments `address++` inside `get`,
  `put` and `dump` act on an `int address` and wrap in the same way: the step after
  2147483647 is -2147483648.
* The EEPROM is an external device: a byte-addressed memory with `read` and `write`, whose
  address parameter is an `int`.  A device applied to an address `e a` is the byte in the
  cell that the `int` value of `a` names.  `commit` makes the written bytes durable and has
  no effect on their values.
* `Serial.printf` diagnostics do not influence any result and are left out.
* The output parameter `char* val` of `get` is returned as the list of bytes of the part of
  the buffer that `get` has written (its leading bytes); the caller reads it as a C string.
* The text that `dump` sends to the serial port is returned line by line: the leading text
  and address of a line, its cells (separator and byte, or the padding `--`) and the name
  printed at its end.  The outer loop of `dump` runs on fuel; `firstfree` lines suffice,
  since every line advances the address by 16, unless the address wraps around behind
  2147483647 on the padding of the last line: then the loop of the source goes on from
  -2147483648 for ever and the result is `none`.
-/

namespace NvmModel

set_option maxRecDepth 8000

/-- A byte: `uint8_t` / `char`. -/
abbrev Byte := Fin 256

/-- Conversion to `uint8_t` (keeps the low 8 bits). -/
def toByte (x : Nat) : Byte := ⟨x % 256, Nat.mod_lt x (by decide)⟩

/-- The statement `sum ^= x` for `uint8_t sum` and an unsigned or byte value `x`. -/
def xor8 (sum : Byte) (x : Nat) : Byte := toByte (sum.val ^^^ x)

/-- The constant `NVM_MAX_LENZ` (65): max buffer size (strlen+1) for values. -/
def NVM_MAX_LENZ : Nat := 65

/-- The constant `NVM_SUMINIT` (0xAA): the initial vector for the checksum of the fields. -/
def NVM_SUMINIT : Byte := 0xAA

/-- The bytes of a C string: everything before the first zero byte. -/
def cstr (s : List Byte) : List Byte := s.takeWhile (fun b => b ≠ 0)

/-- The C library function `strlen`. -/
def strlen (s : List Byte) : Nat := (cstr s).length

/-- The C library function `strcpy(dst, src)`, on the written part `dst` of a buffer:
the bytes of `src` and a terminating zero are stored at the start of the buffer. -/
def strcpy (dst src : List Byte) : List Byte :=
  (cstr src ++ [0]) ++ dst.drop ((cstr src ++ [0]).length)

/-- Conversion of a wide integer to a 32-bit `int` (wrap-around modulo 2^32 into
the range -2^31 .. 2^31-1). -/
def wrapInt (x : Int) : Int := (x + 2147483648) % 4294967296 - 2147483648

/-- The class `NvmField`: one entry of the layout array.  A null `name` marks the sentinel. -/
structure NvmField where
  /-- The name of the field (`none` is the null pointer). -/
  name : Option (List Byte)
  /-- Default value of the field (when not yet stored). -/
  dft : List Byte
  /-- Max strlen of the value stored for name (`unsigned int`). -/
  len : Nat
  /-- Extra data (not used by the Nvm module). -/
  extra : Option (List Byte) := none
  deriving DecidableEq

instance : Inhabited NvmField := ⟨{ name := none, dft := [], len := 0 }⟩

/-- The EEPROM device: one byte per address.  The device calls take the address as an `int`,
so only the cells with an address in the range -2147483648 .. 2147483647 of `int` are ever
read or written; the other cells of `cell` are storage that no call reaches. -/
structure Eeprom where
  /-- The byte stored at each address. -/
  cell : Int → Byte

/-- The byte that a device call finds for the address `a`: the address is converted to `int`,
so this is the cell `a` for `a` in the range of `int`, and the cell -2147483648 for
`a = 2147483648`. -/
def Eeprom.byteAt (e : Eeprom) (a : Int) : Byte := e.cell (wrapInt a)

/-- A device applied to an address, `e a`, is the byte that a device call finds for it,
`e.byteAt a`; the cell itself is `e.cell a`. -/
instance : CoeFun Eeprom (fun _ => Int → Byte) := ⟨Eeprom.byteAt⟩

/-- The device call `EEPROM.read(address)`, with `address` an `int`. -/
def Eeprom.read (e : Eeprom) (address : Int) : Byte := e.byteAt address

/-- The device call `EEPROM.write(address, value)`, with `address` an `int`. -/
def Eeprom.write (e : Eeprom) (address : Int) (value : Byte) : Eeprom :=
  { cell := fun a => if a = wrapInt address then value else e.cell a }

/-- The counting loop of the constructor: `while( f->name!=0 ) { f++; _fieldcount++; }`. -/
def countFields : List NvmField → Nat
  | [] => 0
  | f :: fs => if f.name = none then 0 else countFields fs + 1

/-- The loop of the constructor that fills `_fieldstarts[ix+1]` for `ix = 0 .. cnt-1`;
`start` is `_fieldstarts[ix]` and `fields` the layout array from entry `ix` on. -/
def fieldStartsFrom : Nat → Int → List NvmField → List Int
  | 0, _, _ => []
  | cnt + 1, start, fields =>
      let next := wrapInt (start + 1 + (fields.headD default).len + 1 + 1)
      next :: fieldStartsFrom cnt next fields.tail

/-- The private members of class `Nvm`. -/
structure Nvm where
  /-- The layout (the list of field definitions). -/
  _fields : List NvmField
  /-- For each field, the offset into the EEPROM. -/
  _fieldstarts : List Int
  /-- Number of fields (the length of the layout array, excluding its terminator). -/
  _fieldcount : Nat

/-- The constructor `Nvm::Nvm(NvmField*fields)`. -/
def Nvm.new (fields : List NvmField) : Nvm :=
  let cnt := countFields fields
  { _fields := fields
    _fieldstarts := 0 :: fieldStartsFrom cnt 0 fields
    _fieldcount := cnt }

/-- The size handed to the device in the constructor: `EEPROM.begin(_fieldstarts[_fieldcount])`. -/
def Nvm.eepromSize (n : Nvm) : Int := n._fieldstarts.getD n._fieldcount 0

/-- Method `Nvm::count`: the number of fields. -/
def Nvm.count (n : Nvm) : Int := n._fieldcount

/-- Method `Nvm::field`: field definition for index `ix` (`none`, the null pointer, if out of range). -/
def Nvm.field (n : Nvm) (ix : Int) : Option NvmField :=
  if ix < 0 ∨ ix ≥ n._fieldcount then none else some (n._fields.getD ix.toNat default)

/-- The scan of `Nvm::find`, `for(ix=0; ix<_fieldcount; ix++) if( strcmp(..)==0 ) return ix;`
from index `ix` on, `cnt` iterations remaining. -/
def findFrom (name : List Byte) : Nat → Int → List NvmField → Int
  | 0, _, _ => -1
  | cnt + 1, ix, fields =>
      if cstr (((fields.headD default).name).getD []) = cstr name then ix
      else findFrom name cnt (ix + 1) fields.tail

/-- Method `Nvm::find`: index of the field with name `name` (-1 if not found). -/
def Nvm.find (n : Nvm) (name : List Byte) : Int := findFrom name n._fieldcount 0 n._fields

/-- The read loop of `get`: `for(i=0; i<=len; i++) { *p = EEPROM.read(address++); sum ^= *p; p++; }`
with `cnt` iterations remaining; `val` is the part of the buffer written so far. -/
def getChars (e : Eeprom) : Nat → Int → Byte → List Byte → Int × Byte × List Byte
  | 0, address, sum, val => (address, sum, val)
  | cnt + 1, address, sum, val =>
      let c := e.read address
      getChars e cnt (wrapInt (address + 1)) (xor8 sum c.val) (val ++ [c])

/-- Method `Nvm::get(int ix, char* val)`: the bytes written to `val`. -/
def Nvm.get (n : Nvm) (e : Eeprom) (ix : Int) : List Byte :=
  if ix < 0 ∨ ix ≥ n._fieldcount then [0]
  else
    let fld := n._fields.getD ix.toNat default
    let address := n._fieldstarts.getD ix.toNat 0
    let sum := NVM_SUMINIT
    let len := (e.read address).val
    if len > fld.len then strcpy [] fld.dft
    else
      let sum := xor8 sum len
      let r := getChars e (len + 1) (wrapInt (address + 1)) sum []
      let address := r.1
      let sum := r.2.1
      let val := r.2.2
      if val.getD len 0 ≠ 0 then strcpy val fld.dft
      else
        let sum2 := e.read address
        if sum ≠ sum2 then strcpy val fld.dft else val

/-- The string the caller of `get(ix, val)` finds in `val`. -/
def Nvm.getStr (n : Nvm) (e : Eeprom) (ix : Int) : List Byte := cstr (n.get e ix)

/-- Method `Nvm::get(const char* name, char* val)`: look the name up, then read by index. -/
def Nvm.getByName (n : Nvm) (e : Eeprom) (name : List Byte) : List Byte :=
  n.get e (n.find name)

/-- The write loop of `put`: `for(i=0; i<len; i++) { EEPROM.write(address++,*p); sum ^= *p; p++; }`
with `cnt` iterations remaining; `p` is the memory from the pointer `p` on. -/
def putChars : Nat → List Byte → Int → Byte → Eeprom → Int × Byte × Eeprom
  | 0, _, address, sum, e => (address, sum, e)
  | cnt + 1, p, address, sum, e =>
      let c := p.headD 0
      putChars cnt p.tail (wrapInt (address + 1)) (xor8 sum c.val) (e.write address c)

/-- Method `Nvm::put(int ix, const char* val)`: the EEPROM content afterwards. -/
def Nvm.put (n : Nvm) (e : Eeprom) (ix : Int) (val : List Byte) : Eeprom :=
  if ix < 0 ∨ ix ≥ n._fieldcount then e
  else
    let fld := n._fields.getD ix.toNat default
    let address := n._fieldstarts.getD ix.toNat 0
    let sum := NVM_SUMINIT
    let len := strlen val
    let len := if len > fld.len then fld.len else len
    let e := e.write address (toByte len)
    let sum := xor8 sum len
    let r := putChars len val (wrapInt (address + 1)) sum e
    let address := r.1
    let sum := r.2.1
    let e := r.2.2
    let e := e.write address 0
    let sum := xor8 sum 0
    e.write (wrapInt (address + 1)) sum

/-- Method `Nvm::put(const char* name, const char* val)`: look the name up, then write by index. -/
def Nvm.putByName (n : Nvm) (e : Eeprom) (name : List Byte) (val : List Byte) : Eeprom :=
  n.put e (n.find name) val


/-- One cell of the hex dump, the output of `Serial.printf("%c%02x", sep, EEPROM.read(address))`
or of `Serial.printf("%c--", sep)`: the separator and the byte shown (`none` for `--`). -/
structure DumpCell where
  /-- The separator character: a blank, or a bar at a field start. -/
  sep : Char
  /-- The byte printed in hex, or `none` for the padding `--`. -/
  value : Option Byte
  deriving DecidableEq

instance : Inhabited DumpCell := ⟨{ sep := ' ', value := none }⟩

/-- One line of the hex dump: the leading text and address printed by
`Serial.printf("%s%04x ", ..)`, the cells, and the name printed after them (if any). -/
structure DumpLine where
  /-- The text printed in front of every line. -/
  lead : List Byte
  /-- The address printed in front of the cells. -/
  address : Int
  /-- The cells of the line, left to right. -/
  cells : List DumpCell
  /-- The field name handed to `Serial.printf(" %s", name)` at the end of the line
  (`none`: nothing printed). -/
  name : Option (List Byte)
  deriving DecidableEq

instance : Inhabited DumpLine := ⟨{ lead := [], address := 0, cells := [], name := none }⟩

/-- The local variables of `Nvm::dump` that change while it runs. -/
structure DumpState where
  /-- The table `_fieldstarts` from the pointer `start` on. -/
  start : List Int
  /-- The next device address to show. -/
  address : Int
  /-- The index of the next field. -/
  ix : Nat
  /-- The name to print at the end of the line (`none` is the null pointer). -/
  name : Option (List Byte)

/-- The first inner loop of `dump`, `while( x<16 && address<firstfree ) { .. }`, with
`rem = 16 - x` cells left on the line; returns the state, the cells and the final `16 - x`. -/
def dumpData (n : Nvm) (e : Eeprom) (firstfree : Int) :
    Nat → DumpState → List DumpCell → DumpState × List DumpCell × Nat
  | 0, s, cells => (s, cells, 0)
  | rem + 1, s, cells =>
      if s.address < firstfree then
        if s.start.headD 0 = s.address then
          dumpData n e firstfree rem
            { start := s.start.tail, address := wrapInt (s.address + 1), ix := s.ix + 1,
              name := (n._fields.getD s.ix default).name }
            (cells ++ [{ sep := '|', value := some (e.read s.address) }])
        else
          dumpData n e firstfree rem
            { start := s.start, address := wrapInt (s.address + 1), ix := s.ix, name := s.name }
            (cells ++ [{ sep := ' ', value := some (e.read s.address) }])
      else (s, cells, rem + 1)

/-- The second inner loop of `dump`, `while( x<16 ) { .. }`, with `rem = 16 - x`. -/
def dumpPad : Nat → DumpState → List DumpCell → DumpState × List DumpCell
  | 0, s, cells => (s, cells)
  | rem + 1, s, cells =>
      dumpPad rem
        { start := s.start, address := wrapInt (s.address + 1), ix := s.ix, name := s.name }
        (cells ++ [{ sep := if s.start.headD 0 = s.address then '|' else ' ', value := none }])

/-- The outer loop of `dump`, `while( address<firstfree ) { .. }`, run for at most `fuel`
lines; `none` when the fuel does not suffice. -/
def dumpLines (n : Nvm) (e : Eeprom) (lead : List Byte) (firstfree : Int) :
    Nat → DumpState → List DumpLine → Option (List DumpLine)
  | fuel, s, out =>
      if s.address < firstfree then
        match fuel with
        | 0 => none
        | fuel + 1 =>
            let r := dumpData n e firstfree 16 s []
            let q := dumpPad r.2.2 r.1 r.2.1
            dumpLines n e lead firstfree fuel
              { start := q.1.start, address := q.1.address, ix := q.1.ix, name := none }
              (out ++ [{ lead := lead, address := s.address, cells := q.2, name := q.1.name }])
      else some out

/-- Method `Nvm::dump(char* lead)`: the lines written to the serial port (a null `lead`
stands for the empty string).  A line advances the address by 16, so `firstfree` lines are
more than the loop can take unless the `int address` wraps around on the last line, and
then the loop of the source does not come to an end. -/
def Nvm.dump (n : Nvm) (e : Eeprom) (lead : Option (List Byte)) : Option (List DumpLine) :=
  let firstfree := n._fieldstarts.getD n._fieldcount 0
  dumpLines n e (cstr (lead.getD [])) firstfree firstfree.toNat
    { start := n._fieldstarts, address := 0, ix := 0, name := none } []

/-- The bytes of an ASCII string literal. -/
def bytes (s : String) : List Byte := s.toList.map (fun c => toByte c.toNat)

/-! ## Auxiliary definitions used to state and prove the properties -/

/-- The `cnt` bytes that `EEPROM.read` returns for `address`, `address + 1`, ..: the
addresses are passed as `int`s. -/
def readBytes (e : Eeprom) : Int → Nat → List Byte
  | _, 0 => []
  | address, cnt + 1 => e address :: readBytes e (address + 1) cnt

/-- The device after storing the bytes `bs` at consecutive addresses from `address` on. -/
def writeBytes (e : Eeprom) : Int → List Byte → Eeprom
  | _, [] => e
  | address, b :: bs => writeBytes (e.write address b) (address + 1) bs

/-- Folding `sum ^= b` over a list of bytes. -/
def xorAll (sum : Byte) (bs : List Byte) : Byte := bs.foldl (fun s b => xor8 s b.val) sum

/-- The XOR of a list of bytes, as a number. -/
def xorNat (bs : List Byte) : Nat := bs.foldl (fun s b => s ^^^ b.val) 0

/-- The device after the single byte at `address` is replaced by `value`. -/
def corrupt (e : Eeprom) (address : Int) (value : Byte) : Eeprom :=
  { cell := fun a => if a = wrapInt address then value else e.cell a }

/-- A string without zero bytes. -/
def ZeroFree (v : List Byte) : Prop := ∀ b ∈ v, b ≠ 0

instance (v : List Byte) : Decidable (ZeroFree v) := by
  unfold ZeroFree; infer_instance

/-- Every field of the layout respects the descriptor bound `len ≤ NVM_MAX_LENZ-1`. -/
def LenBounded (n : Nvm) : Prop :=
  ∀ f ∈ n._fields.take n._fieldcount, f.len ≤ NVM_MAX_LENZ - 1

instance (n : Nvm) : Decidable (LenBounded n) := by
  unfold LenBounded; infer_instance

/-- Every field of the layout has a default that fits it: `strlen(dft) ≤ len`. -/
def DftBounded (n : Nvm) : Prop :=
  ∀ f ∈ n._fields.take n._fieldcount, strlen f.dft ≤ f.len

instance (n : Nvm) : Decidable (DftBounded n) := by
  unfold DftBounded; infer_instance

/-- The entry `_fieldstarts[ix]`: the device address of the record of field `ix`. -/
def Nvm.offset (n : Nvm) (ix : Int) : Int := n._fieldstarts.getD ix.toNat 0

/-- The number of device bytes taken by the first `k` entries of a layout: the sum of
`len + 3` over them. -/
def sizeUpTo (fields : List NvmField) (k : Nat) : Nat :=
  ((fields.take k).map (fun f => f.len + 3)).sum

/-- The number of device bytes taken by all fields of a layout. -/
def layoutSize (fields : List NvmField) : Nat := sizeUpTo fields (countFields fields)

/-- The layout of the usage example: fields "ssid" and "password" of length 32 with empty
defaults, and the mandatory sentinel. -/
def wifiFields : List NvmField :=
  [ { name := some (bytes "ssid"), dft := [], len := 32 },
    { name := some (bytes "password"), dft := [], len := 32 },
    { name := none, dft := [], len := 0 } ]

/-- A layout with non-empty defaults. -/
def sampleFields : List NvmField :=
  [ { name := some (bytes "host"), dft := bytes "nvm", len := 8 },
    { name := some (bytes "port"), dft := bytes "80", len := 5 },
    { name := none, dft := [], len := 0 } ]

/-- A layout with one field whose length is the largest `unsigned int`. -/
def maxLenFields : List NvmField :=
  [ { name := some (bytes "a"), dft := [], len := 4294967295 },
    { name := none, dft := [], len := 0 } ]

/-- A layout with one field of length 2^32 - 3. -/
def wrapFields : List NvmField :=
  [ { name := some (bytes "a"), dft := [], len := 4294967293 },
    { name := none, dft := [], len := 0 } ]

/-- A device whose earlier content left the byte 2 at address 5 and zeros elsewhere. -/
def staleDevice : Eeprom := { cell := fun a => if a = 5 then 2 else 0 }

/-- An erased device with all bytes 0xFF. -/
def erasedFF : Eeprom := { cell := fun _ => 0xFF }

/-- An erased device with all bytes 0x00. -/
def erased00 : Eeprom := { cell := fun _ => 0x00 }

/-- The test `strcmp(f.name, name)==0`: the field `f` has the name `name`. -/
def NameIs (f : NvmField) (name : List Byte) : Prop :=
  cstr (f.name.getD []) = cstr name

instance (f : NvmField) (name : List Byte) : Decidable (NameIs f name) := by
  unfold NameIs; infer_instance

/-- Field `i` of the store has the name `name`. -/
def Nvm.hasName (n : Nvm) (i : Nat) (name : List Byte) : Prop :=
  NameIs (n._fields.getD i default) name

instance (n : Nvm) (i : Nat) (name : List Byte) : Decidable (n.hasName i name) := by
  unfold Nvm.hasName; infer_instance

/-- The cell that a dump shows for the address `a`: cell `a % 16` of line `a / 16`. -/
def cellAt (lines : List DumpLine) (a : Nat) : Option DumpCell :=
  (lines[a / 16]?).bind (fun l => l.cells[a % 16]?)

/-- A layout whose second field has a length that makes the start table wrap around: the
field starts are 0, 13, 0, 5 and the size is 30. -/
def oddFields : List NvmField :=
  [ { name := some (bytes "a"), dft := [], len := 10 },
    { name := some (bytes "b"), dft := [], len := 4294967280 },
    { name := some (bytes "c"), dft := [], len := 2 },
    { name := some (bytes "d"), dft := [], len := 22 },
    { name := none, dft := [], len := 0 } ]

/-- A layout whose first field has length 2^32 - 3, so that both fields start at 0. -/
def overlapFields : List NvmField :=
  [ { name := some (bytes "a"), dft := [], len := 4294967293 },
    { name := some (bytes "b"), dft := [], len := 5 },
    { name := none, dft := [], len := 0 } ]

/-- A layout in which two fields share the name "id". -/
def twinFields : List NvmField :=
  [ { name := some (bytes "key"), dft := bytes "k", len := 4 },
    { name := some (bytes "id"), dft := bytes "1", len := 4 },
    { name := some (bytes "id"), dft := bytes "2", len := 4 },
    { name := none, dft := [], len := 0 } ]

/-- The cell expected in a dump for the device address `a` of a layout without wrap-around:
a bar in front of the first byte of a record, and the byte stored at `a`. -/
def specCell (fields : List NvmField) (e : Eeprom) (a : Nat) : DumpCell :=
  { sep := if ∃ i : Nat, i < countFields fields ∧ sizeUpTo fields i = a then '|' else ' '
    value := some (e a) }

/-- The cells expected for the `m` addresses from `a` on. -/
def specCells (fields : List NvmField) (e : Eeprom) : Nat → Nat → List DumpCell
  | _, 0 => []
  | a, m + 1 => specCell fields e a :: specCells fields e (a + 1) m

/-- The relation between the address `a` and the index `si` of the next field start in the
loops of `dump`: the fields before `si` start below `a`, field `si` does not. -/
def DumpInv (fields : List NvmField) (a si : Nat) : Prop :=
  si ≤ countFields fields ∧ (∀ i : Nat, i < si → sizeUpTo fields i < a)
    ∧ a ≤ sizeUpTo fields si

/-- The description of line `k` of a dump of a layout without wrap-around. -/
def LineOk (fields : List NvmField) (e : Eeprom) (lead : List Byte) (k : Nat)
    (line : DumpLine) : Prop :=
  line.lead = lead ∧ line.address = ((16 * k : Nat) : Int) ∧ line.cells.length = 16
  ∧ (∀ x : Nat, x < 16 → 16 * k + x < layoutSize fields →
      line.cells[x]? = some (specCell fields e (16 * k + x)))
  ∧ (∀ x : Nat, x < 16 → layoutSize fields ≤ 16 * k + x →
      ∃ c : DumpCell, line.cells[x]? = some c ∧ c.value = none)
  ∧ (∀ i : Nat, i < countFields fields →
      16 * k ≤ sizeUpTo fields i → sizeUpTo fields i < 16 * k + 16 →
      (∀ j : Nat, j < countFields fields → i < j → 16 * k + 16 ≤ sizeUpTo fields j) →
      line.name = (fields.getD i default).name)
  ∧ ((∀ i : Nat, i < countFields fields →
        ¬ (16 * k ≤ sizeUpTo fields i ∧ sizeUpTo fields i < 16 * k + 16)) →
      line.name = none)

/-- The length that `put` stores: `strlen(val)`, truncated to the field length. -/
def putLen (maxlen : Nat) (val : List Byte) : Nat :=
  if strlen val > maxlen then maxlen else strlen val

/-- The bytes that `put` stores for `val` in a field of length `maxlen`: length byte,
payload, terminating zero, checksum. -/
def record (maxlen : Nat) (val : List Byte) : List Byte :=
  toByte (putLen maxlen val) ::
    (val.take (putLen maxlen val) ++
      [0, xorAll (xor8 NVM_SUMINIT (putLen maxlen val)) (val.take (putLen maxlen val))])

/-! ## Bytes and checksums -/

theorem toByte_val (x : Nat) : (toByte x).val = x % 256 := rfl

theorem toByte_val_of_lt {x : Nat} (h : x < 256) : (toByte x).val = x := by
  simp [toByte, Nat.mod_eq_of_lt h]

theorem toByte_self (b : Byte) : toByte b.val = b := by
  apply Fin.ext
  simp [toByte, Nat.mod_eq_of_lt b.isLt]

theorem xor_lt_256 {a b : Nat} (ha : a < 256) (hb : b < 256) : a ^^^ b < 256 :=
  Nat.xor_lt_two_pow (n := 8) ha hb

theorem xor8_val {s : Byte} {x : Nat} (hx : x < 256) : (xor8 s x).val = s.val ^^^ x := by
  unfold xor8
  exact toByte_val_of_lt (xor_lt_256 s.isLt hx)

theorem xor8_zero (s : Byte) : xor8 s 0 = s := by
  apply Fin.ext
  rw [xor8_val (by decide)]
  simp

theorem xorAll_append (s : Byte) (xs ys : List Byte) :
    xorAll s (xs ++ ys) = xorAll (xorAll s xs) ys := by
  simp [xorAll, List.foldl_append]

theorem xorNat_lt (bs : List Byte) : xorNat bs < 256 := by
  unfold xorNat
  suffices h : ∀ (a : Nat), a < 256 → List.foldl (fun s (b : Byte) => s ^^^ b.val) a bs < 256 from
    h 0 (by decide)
  induction bs with
  | nil => intro a ha; simpa using ha
  | cons b bs ih =>
    intro a ha
    simp only [List.foldl_cons]
    exact ih _ (xor_lt_256 ha b.isLt)

theorem foldl_xor_eq (a : Nat) (bs : List Byte) :
    List.foldl (fun s (b : Byte) => s ^^^ b.val) a bs = a ^^^ xorNat bs := by
  unfold xorNat
  induction bs generalizing a with
  | nil => simp
  | cons b bs ih =>
    simp only [List.foldl_cons]
    rw [ih (a ^^^ b.val), ih (0 ^^^ b.val)]
    simp [Nat.xor_assoc]

theorem xorAll_val (s : Byte) (bs : List Byte) : (xorAll s bs).val = s.val ^^^ xorNat bs := by
  induction bs generalizing s with
  | nil => simp [xorAll, xorNat]
  | cons b bs ih =>
    have h : xorAll s (b :: bs) = xorAll (xor8 s b.val) bs := rfl
    rw [h, ih, xor8_val b.isLt]
    have h2 : xorNat (b :: bs) = b.val ^^^ xorNat bs := by
      unfold xorNat
      simp only [List.foldl_cons]
      rw [foldl_xor_eq]
      simp [xorNat]
    rw [h2, Nat.xor_assoc]

/-! ## C strings -/

theorem cstr_of_zeroFree {v : List Byte} (h : ZeroFree v) : cstr v = v := by
  unfold cstr
  rw [List.takeWhile_eq_self_iff]
  intro b hb
  simpa using h b hb

theorem zeroFree_cstr (s : List Byte) : ZeroFree (cstr s) := by
  intro b hb
  unfold cstr at hb
  have := List.mem_takeWhile_imp hb
  simpa using this

theorem zeroFree_take {v : List Byte} (h : ZeroFree v) (k : Nat) : ZeroFree (v.take k) :=
  fun b hb => h b (List.mem_of_mem_take hb)

theorem cstr_append_zero {v : List Byte} (h : ZeroFree v) (rest : List Byte) :
    cstr (v ++ 0 :: rest) = v := by
  unfold cstr
  induction v with
  | nil => simp
  | cons b bs ih =>
    have hb : b ≠ 0 := h b (List.mem_cons_self _ _)
    have hbs : ZeroFree bs := fun c hc => h c (List.mem_cons_of_mem _ hc)
    have h2 := ih hbs
    simp only [List.cons_append, List.takeWhile_cons, hb, ne_eq, not_false_eq_true,
      decide_True, ite_true]
    rw [h2]

theorem cstr_strcpy (dst src : List Byte) : cstr (strcpy dst src) = cstr src := by
  unfold strcpy
  rw [List.append_assoc]
  exact cstr_append_zero (zeroFree_cstr src) _

theorem strlen_le_length (s : List Byte) : strlen s ≤ s.length := by
  unfold strlen cstr
  exact (List.takeWhile_sublist _).length_le

theorem strlen_of_zeroFree {v : List Byte} (h : ZeroFree v) : strlen v = v.length := by
  unfold strlen
  rw [cstr_of_zeroFree h]

/-! ## The device as a memory -/

theorem wrapInt_idem (x : Int) : wrapInt (wrapInt x) = wrapInt x := by
  unfold wrapInt
  omega

theorem wrapInt_add (x k : Int) : wrapInt (wrapInt x + k) = wrapInt (x + k) := by
  unfold wrapInt
  omega

theorem wrapInt_congr_add {x y : Int} (h : wrapInt x = wrapInt y) (k : Int) :
    wrapInt (x + k) = wrapInt (y + k) := by
  rw [← wrapInt_add x k, ← wrapInt_add y k, h]

theorem wrapInt_range (x : Int) : -2147483648 ≤ wrapInt x ∧ wrapInt x < 2147483648 := by
  unfold wrapInt
  omega

theorem wrapInt_of_range {x : Int} (h0 : -2147483648 ≤ x) (h1 : x < 2147483648) :
    wrapInt x = x := by
  unfold wrapInt
  omega

theorem Eeprom.eq_of_cell {e1 e2 : Eeprom} (h : ∀ x : Int, e1.cell x = e2.cell x) : e1 = e2 := by
  cases e1 with
  | mk c1 =>
    cases e2 with
    | mk c2 =>
      have : c1 = c2 := funext h
      rw [this]

theorem app_congr (e : Eeprom) {x y : Int} (h : wrapInt x = wrapInt y) : e x = e y := by
  unfold Eeprom.byteAt
  rw [h]

theorem app_wrapInt (e : Eeprom) (x : Int) : e (wrapInt x) = e x :=
  app_congr e (wrapInt_idem x)

theorem read_eq (e : Eeprom) (a : Int) : e.read a = e a := rfl

/-- For an address in the range of `int` the device call reaches the cell of that address. -/
theorem app_of_range (e : Eeprom) {x : Int} (h0 : -2147483648 ≤ x) (h1 : x < 2147483648) :
    e x = e.cell x := by
  show e.cell (wrapInt x) = e.cell x
  rw [wrapInt_of_range h0 h1]

theorem write_app (e : Eeprom) (a : Int) (v : Byte) (x : Int) :
    (e.write a v) x = if wrapInt x = wrapInt a then v else e x := rfl

theorem write_same (e : Eeprom) (a : Int) (v : Byte) : (e.write a v) a = v := by
  rw [write_app, if_pos rfl]

theorem write_congr (e : Eeprom) {a a2 : Int} (h : wrapInt a = wrapInt a2) (v : Byte) :
    e.write a v = e.write a2 v := by
  unfold Eeprom.write
  rw [h]

theorem readBytes_length (e : Eeprom) (a : Int) (k : Nat) : (readBytes e a k).length = k := by
  induction k generalizing a with
  | zero => rfl
  | succ k ih => simp [readBytes, ih]

theorem readBytes_succ (e : Eeprom) (a : Int) (k : Nat) :
    readBytes e a (k + 1) = readBytes e a k ++ [e (a + k)] := by
  induction k generalizing a with
  | zero => simp [readBytes]
  | succ k ih =>
    have h : readBytes e a (k + 1 + 1) = e a :: readBytes e (a + 1) (k + 1) := rfl
    rw [h, ih (a + 1)]
    have h3 : a + 1 + (k : Int) = a + ((k + 1 : Nat) : Int) := by push_cast; ring
    rw [h3]
    rfl

theorem readBytes_congr {e1 e2 : Eeprom} {a : Int} {k : Nat}
    (h : ∀ j : Nat, j < k → e1 (a + j) = e2 (a + j)) : readBytes e1 a k = readBytes e2 a k := by
  induction k with
  | zero => rfl
  | succ k ih =>
    rw [readBytes_succ, readBytes_succ, ih (fun j hj => h j (by omega)), h k (by omega)]

/-- The bytes read depend on the start address as an `int` only. -/
theorem readBytes_addr (e : Eeprom) {a a2 : Int} (h : wrapInt a = wrapInt a2) (k : Nat) :
    readBytes e a k = readBytes e a2 k := by
  induction k with
  | zero => rfl
  | succ k ih =>
    rw [readBytes_succ, readBytes_succ, ih, app_congr e (wrapInt_congr_add h k)]

/-- The device after a run of writes depends on the start address as an `int` only. -/
theorem writeBytes_addr (e : Eeprom) {a a2 : Int} (h : wrapInt a = wrapInt a2)
    (bs : List Byte) : writeBytes e a bs = writeBytes e a2 bs := by
  induction bs generalizing e a a2 with
  | nil => rfl
  | cons b bs ih =>
    simp only [writeBytes]
    rw [write_congr e h b, ih _ (wrapInt_congr_add h 1)]

/-- A cell that is none of the cells written keeps its byte. -/
theorem writeBytes_cell_outside (e : Eeprom) (a : Int) (bs : List Byte) (x : Int)
    (h : ∀ k : Nat, k < bs.length → x ≠ wrapInt (a + k)) :
    (writeBytes e a bs).cell x = e.cell x := by
  induction bs generalizing e a with
  | nil => rfl
  | cons b bs ih =>
    simp only [writeBytes]
    rw [ih]
    · have h0 := h 0 (by simp)
      simp only [Nat.cast_zero, add_zero] at h0
      simp [Eeprom.write, h0]
    · intro k hk
      have := h (k + 1) (by simp; omega)
      have h3 : a + 1 + (k : Int) = a + ((k + 1 : Nat) : Int) := by push_cast; ring
      rw [h3]
      exact this

/-- A cell that is one of the cells written holds a byte that the prior content does not
influence. -/
theorem writeBytes_cell_inside (e1 e2 : Eeprom) (a : Int) (bs : List Byte) (x : Int)
    (h : ∃ k : Nat, k < bs.length ∧ x = wrapInt (a + k)) :
    (writeBytes e1 a bs).cell x = (writeBytes e2 a bs).cell x := by
  induction bs generalizing e1 e2 a with
  | nil =>
    obtain ⟨k, hk, _⟩ := h
    simp at hk
  | cons b bs ih =>
    simp only [writeBytes]
    by_cases htail : ∃ k : Nat, k < bs.length ∧ x = wrapInt (a + 1 + k)
    · exact ih _ _ _ htail
    · have hno : ∀ k : Nat, k < bs.length → x ≠ wrapInt (a + 1 + k) :=
        fun k hk hx => htail ⟨k, hk, hx⟩
      rw [writeBytes_cell_outside _ _ _ _ hno, writeBytes_cell_outside _ _ _ _ hno]
      obtain ⟨k, hk, hx⟩ := h
      cases k with
      | zero =>
        simp only [Nat.cast_zero, add_zero] at hx
        simp [Eeprom.write, hx]
      | succ k =>
        exfalso
        apply hno k (by simpa using hk)
        rw [hx]
        congr 1
        push_cast
        ring

theorem writeBytes_outside (e : Eeprom) (a : Int) (bs : List Byte) (x : Int)
    (h : ∀ k : Nat, k < bs.length → wrapInt x ≠ wrapInt (a + k)) :
    writeBytes e a bs x = e x :=
  writeBytes_cell_outside e a bs (wrapInt x) h

theorem writeBytes_append (e : Eeprom) (a : Int) (xs ys : List Byte) :
    writeBytes e a (xs ++ ys) = writeBytes (writeBytes e a xs) (a + xs.length) ys := by
  induction xs generalizing e a with
  | nil => simp [writeBytes]
  | cons b bs ih =>
    have h : (b :: bs) ++ ys = b :: (bs ++ ys) := rfl
    rw [h]
    simp only [writeBytes, List.length_cons]
    rw [ih]
    have h3 : a + 1 + (bs.length : Int) = a + ((bs.length + 1 : Nat) : Int) := by push_cast; ring
    rw [h3]

/-- Two addresses less than 2^32 apart are different as `int`s. -/
theorem wrapInt_ne_of_lt {x y : Int} (h1 : x < y) (h2 : y - x < 4294967296) :
    wrapInt x ≠ wrapInt y := by
  unfold wrapInt
  omega

theorem readBytes_writeBytes (e : Eeprom) (a : Int) (bs : List Byte)
    (hlen : bs.length ≤ 4294967296) :
    readBytes (writeBytes e a bs) a bs.length = bs := by
  induction bs generalizing e a with
  | nil => rfl
  | cons b bs ih =>
    simp only [List.length_cons] at hlen
    have h1 : readBytes (writeBytes e a (b :: bs)) a (bs.length + 1)
        = (writeBytes (e.write a b) (a + 1) bs) a
          :: readBytes (writeBytes (e.write a b) (a + 1) bs) (a + 1) bs.length := rfl
    rw [List.length_cons, h1, ih _ _ (by omega), writeBytes_outside, write_same]
    intro k hk
    apply wrapInt_ne_of_lt
    · omega
    · omega

theorem readBytes_append (e : Eeprom) (a : Int) (j k : Nat) :
    readBytes e a (j + k) = readBytes e a j ++ readBytes e (a + j) k := by
  induction j generalizing a with
  | zero => simp [readBytes]
  | succ j ih =>
    have h : j + 1 + k = (j + k) + 1 := by omega
    rw [h]
    simp only [readBytes]
    rw [ih]
    have h3 : a + 1 + (j : Int) = a + ((j + 1 : Nat) : Int) := by push_cast; ring
    rw [h3]
    rfl

/-! ## The loops of `get` and `put` in closed form -/

theorem getChars_eq (e : Eeprom) (cnt : Nat) (a : Int) (s : Byte) (val : List Byte) :
    (getChars e cnt a s val).2
      = (xorAll s (readBytes e a cnt), val ++ readBytes e a cnt)
    ∧ wrapInt (getChars e cnt a s val).1 = wrapInt (a + cnt) := by
  induction cnt generalizing a s val with
  | zero => simp [getChars, readBytes, xorAll]
  | succ cnt ih =>
    simp only [getChars, read_eq]
    obtain ⟨h1, h2⟩ := ih (wrapInt (a + 1)) (xor8 s (e a).val) (val ++ [e a])
    rw [h1, h2, readBytes_addr e (wrapInt_idem (a + 1)) cnt, wrapInt_add]
    refine ⟨?_, ?_⟩
    · simp only [readBytes, xorAll, List.foldl_cons, List.append_assoc, List.singleton_append]
    · congr 1
      push_cast
      ring

theorem putChars_eq (cnt : Nat) (p : List Byte) (a : Int) (s : Byte) (e : Eeprom)
    (h : cnt ≤ p.length) :
    (putChars cnt p a s e).2
      = (xorAll s (p.take cnt), writeBytes e a (p.take cnt))
    ∧ wrapInt (putChars cnt p a s e).1 = wrapInt (a + cnt) := by
  induction cnt generalizing p a s e with
  | zero => simp [putChars, writeBytes, xorAll]
  | succ cnt ih =>
    cases p with
    | nil => simp at h
    | cons c cs =>
      simp only [putChars, List.headD_cons, List.tail_cons, List.take_succ_cons]
      obtain ⟨h1, h2⟩ := ih cs (wrapInt (a + 1)) (xor8 s c.val) (e.write a c) (by simpa using h)
      rw [h1, h2, writeBytes_addr _ (wrapInt_idem (a + 1)), wrapInt_add]
      refine ⟨?_, ?_⟩
      · simp only [xorAll, List.foldl_cons, writeBytes]
      · congr 1
        push_cast
        ring

/-! ## `get` and `put` in closed form -/

theorem putLen_le_length (maxlen : Nat) (val : List Byte) : putLen maxlen val ≤ val.length := by
  unfold putLen
  have := strlen_le_length val
  split <;> omega

theorem putLen_le (maxlen : Nat) (val : List Byte) : putLen maxlen val ≤ maxlen := by
  unfold putLen
  split <;> omega

theorem putLen_eq_min (maxlen : Nat) (val : List Byte) :
    putLen maxlen val = min (strlen val) maxlen := by
  unfold putLen
  split <;> omega

theorem record_length (maxlen : Nat) (val : List Byte) :
    (record maxlen val).length = putLen maxlen val + 3 := by
  simp [record, List.length_take, Nat.min_eq_left (putLen_le_length maxlen val)]

theorem put_invalid (n : Nvm) (e : Eeprom) (ix : Int) (val : List Byte)
    (h : ix < 0 ∨ ix ≥ n._fieldcount) : n.put e ix val = e := by
  unfold Nvm.put
  rw [if_pos h]

theorem put_valid (n : Nvm) (e : Eeprom) (ix : Int) (val : List Byte)
    (h : ¬ (ix < 0 ∨ ix ≥ n._fieldcount)) :
    n.put e ix val
      = writeBytes e (n._fieldstarts.getD ix.toNat 0)
          (record (n._fields.getD ix.toNat default).len val) := by
  unfold Nvm.put
  rw [if_neg h]
  simp only []
  have hfold : (if strlen val > (n._fields.getD ix.toNat default).len
      then (n._fields.getD ix.toNat default).len else strlen val)
      = putLen (n._fields.getD ix.toNat default).len val := rfl
  rw [hfold]
  simp only [xor8_zero]
  unfold record
  have hlen : (List.take (putLen (n._fields.getD ix.toNat default).len val) val).length
      = putLen (n._fields.getD ix.toNat default).len val := by
    simp [List.length_take, Nat.min_eq_left (putLen_le_length _ _)]
  have hple := putLen_le_length (n._fields.getD ix.toNat default).len val
  generalize putLen (n._fields.getD ix.toNat default).len val = L at hlen hple
  generalize n._fieldstarts.getD ix.toNat 0 = off
  obtain ⟨h1, h2⟩ := putChars_eq L val (wrapInt (off + 1)) (xor8 NVM_SUMINIT L)
    (e.write off (toByte L)) hple
  generalize putChars L val (wrapInt (off + 1)) (xor8 NVM_SUMINIT L)
    (e.write off (toByte L)) = r at h1 h2
  obtain ⟨A, sm, ee⟩ := r
  simp only [Prod.mk.injEq] at h1
  obtain ⟨hs, he⟩ := h1
  simp only [] at h2 ⊢
  rw [hs, he]
  generalize hpay : List.take L val = pay at hlen
  rw [wrapInt_add] at h2
  have hA1 : wrapInt (wrapInt (A + 1)) = wrapInt (off + 1 + (L : Int) + 1) := by
    rw [wrapInt_idem]
    exact wrapInt_congr_add h2 1
  rw [write_congr _ hA1, write_congr _ h2, writeBytes_addr _ (wrapInt_idem (off + 1))]
  simp only [writeBytes]
  rw [writeBytes_append]
  simp only [writeBytes, hlen]

theorem get_invalid (n : Nvm) (e : Eeprom) (ix : Int)
    (h : ix < 0 ∨ ix ≥ n._fieldcount) : n.get e ix = [0] := by
  unfold Nvm.get
  rw [if_pos h]

theorem get_valid (n : Nvm) (e : Eeprom) (ix : Int)
    (h : ¬ (ix < 0 ∨ ix ≥ n._fieldcount)) :
    n.get e ix
      = if (e (n._fieldstarts.getD ix.toNat 0)).val ≤ (n._fields.getD ix.toNat default).len
            ∧ e (n._fieldstarts.getD ix.toNat 0 + 1 + (e (n._fieldstarts.getD ix.toNat 0)).val) = 0
            ∧ e (n._fieldstarts.getD ix.toNat 0 + 2 + (e (n._fieldstarts.getD ix.toNat 0)).val)
                = xorAll (xor8 NVM_SUMINIT (e (n._fieldstarts.getD ix.toNat 0)).val)
                    (readBytes e (n._fieldstarts.getD ix.toNat 0 + 1)
                      (e (n._fieldstarts.getD ix.toNat 0)).val)
        then readBytes e (n._fieldstarts.getD ix.toNat 0 + 1)
              (e (n._fieldstarts.getD ix.toNat 0)).val ++ [0]
        else strcpy
              (if (e (n._fieldstarts.getD ix.toNat 0)).val ≤ (n._fields.getD ix.toNat default).len
                then readBytes e (n._fieldstarts.getD ix.toNat 0 + 1)
                      ((e (n._fieldstarts.getD ix.toNat 0)).val + 1)
                else [])
              (n._fields.getD ix.toNat default).dft := by
  unfold Nvm.get
  rw [if_neg h]
  simp only [read_eq]
  generalize n._fieldstarts.getD ix.toNat 0 = off
  generalize (n._fields.getD ix.toNat default) = fld
  generalize hL : (e off).val = L
  obtain ⟨h1, h2⟩ := getChars_eq e (L + 1) (wrapInt (off + 1)) (xor8 NVM_SUMINIT L) []
  generalize getChars e (L + 1) (wrapInt (off + 1)) (xor8 NVM_SUMINIT L) [] = r at h1 h2
  obtain ⟨A, sm, vl⟩ := r
  simp only [Prod.mk.injEq] at h1
  obtain ⟨hs, hvl⟩ := h1
  simp only [] at h2 ⊢
  rw [wrapInt_add] at h2
  rw [hs, hvl, app_congr e h2, readBytes_addr e (wrapInt_idem (off + 1))]
  simp only [List.nil_append]
  have hget : (readBytes e (off + 1) (L + 1)).getD L 0 = e (off + 1 + L) := by
    rw [readBytes_succ]
    rw [List.getD_eq_getElem?_getD, List.getElem?_append_right (by simp [readBytes_length])]
    simp [readBytes_length]
  rw [hget]
  have hsum : xorAll (xor8 NVM_SUMINIT L) (readBytes e (off + 1) (L + 1))
      = xor8 (xorAll (xor8 NVM_SUMINIT L) (readBytes e (off + 1) L)) (e (off + 1 + L)).val := by
    rw [readBytes_succ, xorAll_append]
    rfl
  rw [hsum]
  have haddr : off + 1 + ((L + 1 : Nat) : Int) = off + 2 + L := by push_cast; ring
  rw [haddr]
  by_cases hlen : L > fld.len
  · have : ¬ L ≤ fld.len := by omega
    simp [hlen, this]
  · have hle : L ≤ fld.len := by omega
    simp only [hlen, hle, if_false, if_true, true_and]
    by_cases hz : e (off + 1 + L) = 0
    · simp only [hz, ne_eq, not_true_eq_false, if_false, true_and]
      have hz0 : ((0 : Byte) : Nat) = 0 := rfl
      rw [hz0, xor8_zero]
      by_cases hs : e (off + 2 + L) = xorAll (xor8 NVM_SUMINIT L) (readBytes e (off + 1) L)
      · rw [if_pos hs, if_neg (by rw [hs]; simp)]
        rw [readBytes_succ, hz]
      · rw [if_neg hs, if_pos (fun hh => hs hh.symm)]
    · simp [hz]

theorem field_eq_some {n : Nvm} {ix : Int} {f : NvmField} (h : n.field ix = some f) :
    ¬ (ix < 0 ∨ ix ≥ n._fieldcount) ∧ n._fields.getD ix.toNat default = f := by
  unfold Nvm.field at h
  by_cases hv : ix < 0 ∨ ix ≥ n._fieldcount
  · rw [if_pos hv] at h; cases h
  · rw [if_neg hv] at h
    exact ⟨hv, Option.some.inj h⟩

theorem len_le_of_lenBounded {n : Nvm} (hb : LenBounded n) {ix : Int} {f : NvmField}
    (h : n.field ix = some f) : f.len ≤ 64 := by
  obtain ⟨hv, hf⟩ := field_eq_some h
  by_cases hr : ix.toNat < n._fields.length
  · have hmem : f ∈ n._fields.take n._fieldcount := by
      rw [← hf, List.getD_eq_getElem _ _ hr]
      rw [List.mem_take_iff_getElem]
      refine ⟨ix.toNat, ?_, rfl⟩
      have : ix.toNat < n._fieldcount := by omega
      omega
    exact hb f hmem
  · rw [List.getD_eq_default _ _ (by omega)] at hf
    rw [← hf]
    exact Nat.zero_le _

/-- The condition under which `get` accepts the stored record of field `ix`. -/
theorem get_accept {n : Nvm} {e : Eeprom} {ix : Int} {f : NvmField}
    (hf : n.field ix = some f) {L : Nat} {pay : List Byte}
    (h0 : (e (n.offset ix)).val = L) (hL : L ≤ f.len)
    (h1 : readBytes e (n.offset ix + 1) L = pay)
    (h2 : e (n.offset ix + 1 + L) = 0)
    (h3 : e (n.offset ix + 2 + L) = xorAll (xor8 NVM_SUMINIT L) pay) :
    n.get e ix = pay ++ [0] := by
  obtain ⟨hv, hfd⟩ := field_eq_some hf
  rw [get_valid n e ix hv, hfd]
  unfold Nvm.offset at h0 h1 h2 h3
  rw [h0, h1]
  rw [if_pos ⟨hL, h2, h3⟩]

/-- The conditions under which `get` falls back to the default. -/
theorem get_reject {n : Nvm} {e : Eeprom} {ix : Int} {f : NvmField}
    (hf : n.field ix = some f)
    (h : ¬ ((e (n.offset ix)).val ≤ f.len
          ∧ e (n.offset ix + 1 + (e (n.offset ix)).val) = 0
          ∧ e (n.offset ix + 2 + (e (n.offset ix)).val)
              = xorAll (xor8 NVM_SUMINIT (e (n.offset ix)).val)
                  (readBytes e (n.offset ix + 1) (e (n.offset ix)).val))) :
    n.getStr e ix = cstr f.dft := by
  obtain ⟨hv, hfd⟩ := field_eq_some hf
  unfold Nvm.getStr
  rw [get_valid n e ix hv, hfd]
  unfold Nvm.offset at h
  rw [if_neg h, cstr_strcpy]

/-- The pieces of the record found on the device after `put`. -/
theorem put_stored {n : Nvm} (e : Eeprom) {ix : Int} {f : NvmField} (val : List Byte)
    (hf : n.field ix = some f) (hL : putLen f.len val < 256) :
    (n.put e ix val) (n.offset ix) = toByte (putLen f.len val)
    ∧ readBytes (n.put e ix val) (n.offset ix + 1) (putLen f.len val)
        = val.take (putLen f.len val)
    ∧ (n.put e ix val) (n.offset ix + 1 + putLen f.len val) = 0
    ∧ (n.put e ix val) (n.offset ix + 2 + putLen f.len val)
        = xorAll (xor8 NVM_SUMINIT (putLen f.len val)) (val.take (putLen f.len val)) := by
  obtain ⟨hv, hfd⟩ := field_eq_some hf
  rw [put_valid n e ix val hv, hfd]
  unfold Nvm.offset
  generalize n._fieldstarts.getD ix.toNat 0 = off
  have hlen : (val.take (putLen f.len val)).length = putLen f.len val := by
    simp [List.length_take, Nat.min_eq_left (putLen_le_length _ _)]
  have hrd := readBytes_writeBytes e off (record f.len val) (by rw [record_length]; omega)
  rw [record_length] at hrd
  have h3 : putLen f.len val + 3 = 1 + (putLen f.len val + 2) := by omega
  rw [h3, readBytes_append, readBytes_append] at hrd
  simp only [readBytes] at hrd
  generalize writeBytes e off (record f.len val) = e2 at hrd ⊢
  unfold record at hrd
  generalize hpay : List.take (putLen f.len val) val = pay at hrd hlen ⊢
  generalize putLen f.len val = L at hrd hlen ⊢
  simp only [List.singleton_append, List.cons.injEq] at hrd
  obtain ⟨ha, hb⟩ := hrd
  have hb2 := List.append_inj hb (by rw [readBytes_length, hlen])
  obtain ⟨hb3, hb4⟩ := hb2
  simp only [List.cons.injEq, and_true] at hb4
  have c1 : off + ((1 : Nat) : Int) = off + 1 := by push_cast; ring
  have c2 : off + 1 + (L : Int) + 1 = off + 2 + L := by ring
  rw [c1] at hb3 hb4
  rw [c2] at hb4
  exact ⟨ha, hb3, hb4.1, hb4.2⟩

theorem put_outside {n : Nvm} (e : Eeprom) {ix : Int} {f : NvmField} (val : List Byte)
    (hf : n.field ix = some f) (x : Int)
    (hx : ∀ k : Nat, k < putLen f.len val + 3 → wrapInt x ≠ wrapInt (n.offset ix + k)) :
    (n.put e ix val) x = e x := by
  obtain ⟨hv, hfd⟩ := field_eq_some hf
  rw [put_valid n e ix val hv, hfd]
  apply writeBytes_outside
  rw [record_length]
  exact hx

/-- Reading back after `put`: the stored prefix of the value, for a field whose length fits
the length byte. -/
theorem get_put_same {n : Nvm} (e : Eeprom) {ix : Int} {f : NvmField} (v : List Byte)
    (hf : n.field ix = some f) (h256 : f.len < 256) :
    n.get (n.put e ix v) ix = v.take (putLen f.len v) ++ [0] := by
  have hL : putLen f.len v < 256 := Nat.lt_of_le_of_lt (putLen_le _ _) h256
  obtain ⟨p0, p1, p2, p3⟩ := put_stored (n := n) e v hf hL
  have h0 : ((n.put e ix v) (n.offset ix)).val = putLen f.len v := by
    rw [p0, toByte_val_of_lt hL]
  exact get_accept hf h0 (putLen_le _ _) p1 p2 p3

theorem getStr_put_same {n : Nvm} (e : Eeprom) {ix : Int} {f : NvmField} (v : List Byte)
    (hf : n.field ix = some f) (h256 : f.len < 256) (hz : ZeroFree v) :
    n.getStr (n.put e ix v) ix = v.take (putLen f.len v) := by
  unfold Nvm.getStr
  rw [get_put_same e v hf h256]
  exact cstr_append_zero (zeroFree_take hz _) []

theorem putLen_of_fits {maxlen : Nat} {v : List Byte} (hz : ZeroFree v)
    (h : v.length ≤ maxlen) : putLen maxlen v = v.length := by
  unfold putLen
  rw [strlen_of_zeroFree hz, if_neg (by omega)]

theorem putLen_of_long {maxlen : Nat} {v : List Byte} (hz : ZeroFree v)
    (h : v.length > maxlen) : putLen maxlen v = maxlen := by
  unfold putLen
  rw [strlen_of_zeroFree hz, if_pos h]

/-! ## Single-byte faults -/

theorem corrupt_app (e : Eeprom) (a : Int) (b : Byte) (x : Int) :
    corrupt e a b x = if wrapInt x = wrapInt a then b else e x := rfl

theorem corrupt_same (e : Eeprom) (a : Int) (b : Byte) : corrupt e a b a = b := by
  rw [corrupt_app, if_pos rfl]

theorem corrupt_other (e : Eeprom) {a x : Int} (b : Byte) (h : wrapInt x ≠ wrapInt a) :
    corrupt e a b x = e x := by
  rw [corrupt_app, if_neg h]

/-- Two different addresses less than 2^32 apart are different as `int`s. -/
theorem wrapInt_ne {x y : Int} (h : x ≠ y) (h1 : x - y < 4294967296)
    (h2 : y - x < 4294967296) : wrapInt x ≠ wrapInt y := by
  unfold wrapInt
  omega

theorem readBytes_getElem? (e : Eeprom) (a : Int) (k j : Nat) (h : j < k) :
    (readBytes e a k)[j]? = some (e (a + j)) := by
  induction k generalizing a j with
  | zero => omega
  | succ k ih =>
    cases j with
    | zero => simp [readBytes]
    | succ j =>
      simp only [readBytes, List.getElem?_cons_succ]
      rw [ih (a + 1) j (by omega)]
      congr 2
      push_cast
      ring

theorem xorNat_cons (b : Byte) (bs : List Byte) : xorNat (b :: bs) = b.val ^^^ xorNat bs := by
  unfold xorNat
  simp only [List.foldl_cons]
  rw [foldl_xor_eq]
  simp [xorNat]

theorem xorNat_append (xs ys : List Byte) : xorNat (xs ++ ys) = xorNat xs ^^^ xorNat ys := by
  induction xs with
  | nil => simp [xorNat]
  | cons b bs ih => simp [xorNat_cons, ih, Nat.xor_assoc]

/-- Replacing one byte of a list changes its checksum. -/
theorem xorAll_replace_ne (s : Byte) (l1 l2 : List Byte) {x y : Byte} (h : x ≠ y) :
    xorAll s (l1 ++ x :: l2) ≠ xorAll s (l1 ++ y :: l2) := by
  intro heq
  have hv := congrArg Fin.val heq
  rw [xorAll_val, xorAll_val, xorNat_append, xorNat_append, xorNat_cons, xorNat_cons] at hv
  have h1 := Nat.xor_right_injective hv
  have h2 := Nat.xor_right_injective h1
  have h3 := Nat.xor_left_injective h2
  exact h (Fin.ext h3)

/-- The bytes at `a ..` split around position `k`. -/
theorem readBytes_split (e : Eeprom) (a : Int) (L k : Nat) (hk : k < L) :
    readBytes e a L
      = readBytes e a k ++ e (a + k) :: readBytes e (a + k + 1) (L - k - 1) := by
  have h : L = k + (1 + (L - k - 1)) := by omega
  conv_lhs => rw [h]
  rw [readBytes_append, readBytes_append]
  simp only [readBytes, List.singleton_append]
  congr 3

/-- A fault in the checksum byte of a freshly stored record makes `get` fall back. -/
theorem fault_checksum {n : Nvm} (e : Eeprom) {ix : Int} {f : NvmField} (v : List Byte)
    (hf : n.field ix = some f) (h256 : f.len < 256) (b : Byte)
    (hb : b ≠ (n.put e ix v) (n.offset ix + 2 + putLen f.len v)) :
    n.getStr (corrupt (n.put e ix v) (n.offset ix + 2 + putLen f.len v) b) ix = cstr f.dft := by
  have hL : putLen f.len v < 256 := Nat.lt_of_le_of_lt (putLen_le _ _) h256
  obtain ⟨p0, p1, _, p3⟩ := put_stored (n := n) e v hf hL
  apply get_reject hf
  have h0 : corrupt (n.put e ix v) (n.offset ix + 2 + putLen f.len v) b (n.offset ix)
      = toByte (putLen f.len v) := by
    rw [corrupt_other _ _ (by unfold wrapInt; omega), p0]
  rw [h0, toByte_val_of_lt hL]
  intro h
  have h3 := h.2.2
  rw [corrupt_same] at h3
  have hrd : readBytes (corrupt (n.put e ix v) (n.offset ix + 2 + putLen f.len v) b)
      (n.offset ix + 1) (putLen f.len v)
      = readBytes (n.put e ix v) (n.offset ix + 1) (putLen f.len v) := by
    apply readBytes_congr
    intro j hj
    exact corrupt_other _ _ (by unfold wrapInt; omega)
  rw [hrd, p1, ← p3] at h3
  exact hb h3

/-- A fault in the terminator byte of a freshly stored record makes `get` fall back. -/
theorem fault_terminator {n : Nvm} (e : Eeprom) {ix : Int} {f : NvmField} (v : List Byte)
    (hf : n.field ix = some f) (h256 : f.len < 256) (b : Byte)
    (hb : b ≠ (n.put e ix v) (n.offset ix + 1 + putLen f.len v)) :
    n.getStr (corrupt (n.put e ix v) (n.offset ix + 1 + putLen f.len v) b) ix = cstr f.dft := by
  have hL : putLen f.len v < 256 := Nat.lt_of_le_of_lt (putLen_le _ _) h256
  obtain ⟨p0, _, p2, _⟩ := put_stored (n := n) e v hf hL
  apply get_reject hf
  have h0 : corrupt (n.put e ix v) (n.offset ix + 1 + putLen f.len v) b (n.offset ix)
      = toByte (putLen f.len v) := by
    rw [corrupt_other _ _ (by unfold wrapInt; omega), p0]
  rw [h0, toByte_val_of_lt hL]
  intro h
  have h2 := h.2.1
  rw [corrupt_same] at h2
  rw [p2] at hb
  exact hb h2

/-- A fault in a payload byte of a freshly stored record makes `get` fall back. -/
theorem fault_payload {n : Nvm} (e : Eeprom) {ix : Int} {f : NvmField} (v : List Byte)
    (hf : n.field ix = some f) (h256 : f.len < 256) (k : Nat) (hk : k < putLen f.len v)
    (b : Byte) (hb : b ≠ (n.put e ix v) (n.offset ix + 1 + k)) :
    n.getStr (corrupt (n.put e ix v) (n.offset ix + 1 + k) b) ix = cstr f.dft := by
  have hL : putLen f.len v < 256 := Nat.lt_of_le_of_lt (putLen_le _ _) h256
  obtain ⟨p0, p1, _, p3⟩ := put_stored (n := n) e v hf hL
  apply get_reject hf
  have h0 : corrupt (n.put e ix v) (n.offset ix + 1 + k) b (n.offset ix)
      = toByte (putLen f.len v) := by
    rw [corrupt_other _ _ (by unfold wrapInt; omega), p0]
  rw [h0, toByte_val_of_lt hL]
  intro h
  have h3 := h.2.2
  rw [corrupt_other _ _ (by unfold wrapInt; omega), p3, ← p1] at h3
  rw [readBytes_split (n.put e ix v) _ _ k hk,
    readBytes_split (corrupt (n.put e ix v) (n.offset ix + 1 + k) b) _ _ k hk] at h3
  rw [corrupt_same] at h3
  have hl1 : readBytes (corrupt (n.put e ix v) (n.offset ix + 1 + k) b) (n.offset ix + 1) k
      = readBytes (n.put e ix v) (n.offset ix + 1) k := by
    apply readBytes_congr
    intro j hj
    exact corrupt_other _ _ (by unfold wrapInt; omega)
  have hl2 : readBytes (corrupt (n.put e ix v) (n.offset ix + 1 + k) b)
        (n.offset ix + 1 + k + 1) (putLen f.len v - k - 1)
      = readBytes (n.put e ix v) (n.offset ix + 1 + k + 1) (putLen f.len v - k - 1) := by
    apply readBytes_congr
    intro j hj
    exact corrupt_other _ _ (by unfold wrapInt; omega)
  rw [hl1, hl2] at h3
  exact xorAll_replace_ne _ _ _ hb.symm h3

/-- A fault that lowers the length byte of a freshly stored record, or raises it above the
field length, makes `get` fall back. -/
theorem fault_length {n : Nvm} (e : Eeprom) {ix : Int} {f : NvmField} (v : List Byte)
    (hf : n.field ix = some f) (h256 : f.len < 256) (hz : ZeroFree v) (b : Byte)
    (hb : b.val < putLen f.len v ∨ f.len < b.val) :
    n.getStr (corrupt (n.put e ix v) (n.offset ix) b) ix = cstr f.dft := by
  have hL : putLen f.len v < 256 := Nat.lt_of_le_of_lt (putLen_le _ _) h256
  obtain ⟨_, p1, _, _⟩ := put_stored (n := n) e v hf hL
  apply get_reject hf
  rw [corrupt_same]
  intro h
  rcases hb with hb | hb
  · have h2 := h.2.1
    rw [corrupt_other _ _ (by unfold wrapInt; omega)] at h2
    have hg := readBytes_getElem? (n.put e ix v) (n.offset ix + 1) _ _ hb
    rw [p1, h2] at hg
    have hmem : (0 : Byte) ∈ v.take (putLen f.len v) := List.getElem?_mem hg
    exact zeroFree_take hz _ 0 hmem rfl
  · have h1 := h.1
    omega

/-! ## The field start table -/

theorem wrapInt_of_fits {x : Int} (h0 : 0 ≤ x) (h1 : x < 2147483648) : wrapInt x = x := by
  unfold wrapInt
  omega

theorem countFields_le_length (fields : List NvmField) : countFields fields ≤ fields.length := by
  induction fields with
  | nil => simp [countFields]
  | cons f fs ih =>
    simp only [countFields, List.length_cons]
    split <;> omega

theorem countFields_eq_takeWhile (fields : List NvmField) :
    countFields fields = (fields.takeWhile (fun f => f.name.isSome)).length := by
  induction fields with
  | nil => rfl
  | cons f fs ih =>
    simp only [countFields, List.takeWhile_cons]
    cases hn : f.name with
    | none => simp
    | some nm => simp [ih]

theorem sizeUpTo_zero (fields : List NvmField) : sizeUpTo fields 0 = 0 := by
  simp [sizeUpTo]

theorem sizeUpTo_cons_succ (f : NvmField) (fs : List NvmField) (k : Nat) :
    sizeUpTo (f :: fs) (k + 1) = f.len + 3 + sizeUpTo fs k := by
  simp [sizeUpTo]

theorem sizeUpTo_succ (fields : List NvmField) (k : Nat) (hk : k < fields.length) :
    sizeUpTo fields (k + 1) = sizeUpTo fields k + ((fields.getD k default).len + 3) := by
  induction fields generalizing k with
  | nil => simp at hk
  | cons f fs ih =>
    cases k with
    | zero => simp [sizeUpTo]
    | succ k =>
      rw [sizeUpTo_cons_succ, sizeUpTo_cons_succ, ih k (by simpa using hk)]
      simp only [List.getD_cons_succ]
      omega

theorem sizeUpTo_mono (fields : List NvmField) {j k : Nat} (h : j ≤ k) :
    sizeUpTo fields j ≤ sizeUpTo fields k := by
  induction fields generalizing j k with
  | nil => simp [sizeUpTo]
  | cons f fs ih =>
    cases j with
    | zero => simp [sizeUpTo_zero]
    | succ j =>
      cases k with
      | zero => omega
      | succ k =>
        rw [sizeUpTo_cons_succ, sizeUpTo_cons_succ]
        have := ih (j := j) (k := k) (by omega)
        omega

theorem sizeUpTo_strictMono (fields : List NvmField) {j k : Nat} (h : j < k)
    (hk : k ≤ fields.length) : sizeUpTo fields j < sizeUpTo fields k := by
  have h1 := sizeUpTo_succ fields j (by omega)
  have h2 := sizeUpTo_mono fields (j := j + 1) (k := k) (by omega)
  omega

/-- Without wrap-around the table entries are the running sums of the record sizes. -/
theorem fieldStartsFrom_getD (cnt : Nat) (start : Int) (fields : List NvmField)
    (hlen : cnt ≤ fields.length) (h0 : 0 ≤ start)
    (hfit : start + sizeUpTo fields cnt < 2147483648) (k : Nat) (hk : k < cnt) :
    (fieldStartsFrom cnt start fields).getD k 0 = start + sizeUpTo fields (k + 1) := by
  induction cnt generalizing start fields k with
  | zero => omega
  | succ cnt ih =>
    cases fields with
    | nil => simp at hlen
    | cons f fs =>
      rw [sizeUpTo_cons_succ] at hfit
      have hw : wrapInt (start + 1 + (f.len : Int) + 1 + 1) = start + (f.len + 3 : Nat) := by
        rw [wrapInt_of_fits (by omega) (by push_cast at hfit; omega)]
        push_cast
        ring
      simp only [fieldStartsFrom, List.headD_cons, List.tail_cons]
      rw [hw]
      cases k with
      | zero =>
        simp [sizeUpTo]
      | succ k =>
        simp only [List.getD_cons_succ]
        rw [ih _ fs (by simpa using hlen) (by omega) (by push_cast at hfit ⊢; omega) k (by omega)]
        rw [sizeUpTo_cons_succ]
        push_cast
        ring

/-- Without wrap-around `offset k` is the size of the first `k` records. -/
theorem offset_eq_sizeUpTo (fields : List NvmField) (hfit : layoutSize fields < 2147483648)
    (k : Nat) (hk : k ≤ countFields fields) :
    (Nvm.new fields).offset k = sizeUpTo fields k := by
  unfold Nvm.offset Nvm.new
  simp only [Int.toNat_ofNat]
  cases k with
  | zero => simp [sizeUpTo]
  | succ k =>
    simp only [List.getD_cons_succ]
    rw [fieldStartsFrom_getD _ _ _ (countFields_le_length fields) (le_refl _)
      (by unfold layoutSize at hfit; omega) k (by omega)]
    simp

theorem exists_record_of_lt (fields : List NvmField) (n : Nat) (hn : n ≤ fields.length)
    (a : Nat) (ha : a < sizeUpTo fields n) :
    ∃ i : Nat, i < n ∧ sizeUpTo fields i ≤ a ∧ a < sizeUpTo fields (i + 1) := by
  induction n with
  | zero => rw [sizeUpTo_zero] at ha; omega
  | succ n ih =>
    by_cases h : a < sizeUpTo fields n
    · obtain ⟨i, hi, h1, h2⟩ := ih (by omega) h
      exact ⟨i, by omega, h1, h2⟩
    · exact ⟨n, by omega, by omega, ha⟩

theorem field_natCast {fields : List NvmField} {i : Nat} {f : NvmField}
    (h : (Nvm.new fields).field i = some f) :
    i < countFields fields ∧ fields.getD i default = f := by
  obtain ⟨hv, hf⟩ := field_eq_some h
  have hc : (Nvm.new fields)._fieldcount = countFields fields := rfl
  rw [hc] at hv
  have hfd : (Nvm.new fields)._fields = fields := rfl
  rw [hfd, Int.toNat_ofNat] at hf
  exact ⟨by omega, hf⟩

/-! ## Overwriting and buffer use -/

theorem writeBytes_inside (e : Eeprom) (a : Int) (bs : List Byte) (k : Nat)
    (hk : k < bs.length) (hlen : bs.length ≤ 4294967296) :
    writeBytes e a bs (a + k) = bs.getD k 0 := by
  have h1 := readBytes_getElem? (writeBytes e a bs) a bs.length k hk
  rw [readBytes_writeBytes e a bs hlen] at h1
  rw [List.getD_eq_getElem?_getD, h1]
  rfl

theorem writeBytes_idem (e : Eeprom) (a : Int) (bs : List Byte) :
    writeBytes (writeBytes e a bs) a bs = writeBytes e a bs := by
  apply Eeprom.eq_of_cell
  intro x
  by_cases h : ∃ k : Nat, k < bs.length ∧ x = wrapInt (a + k)
  · exact writeBytes_cell_inside _ _ a bs x h
  · exact writeBytes_cell_outside _ a bs x (fun k hk hx => h ⟨k, hk, hx⟩)

theorem cstr_append_zero_length (xs rest : List Byte) :
    (cstr (xs ++ 0 :: rest)).length ≤ xs.length := by
  unfold cstr
  induction xs with
  | nil => simp
  | cons b bs ih =>
    simp only [List.cons_append, List.takeWhile_cons]
    split
    · simp only [List.length_cons]; omega
    · simp

theorem strcpy_length (dst src : List Byte) :
    (strcpy dst src).length = max dst.length (strlen src + 1) := by
  unfold strcpy strlen
  simp only [List.length_append, List.length_drop, List.length_singleton]
  omega

theorem dft_le_of_dftBounded {n : Nvm} (hb : DftBounded n) {ix : Int} {f : NvmField}
    (h : n.field ix = some f) : strlen f.dft ≤ f.len := by
  obtain ⟨hv, hf⟩ := field_eq_some h
  by_cases hr : ix.toNat < n._fields.length
  · have hmem : f ∈ n._fields.take n._fieldcount := by
      rw [← hf, List.getD_eq_getElem _ _ hr]
      rw [List.mem_take_iff_getElem]
      refine ⟨ix.toNat, ?_, rfl⟩
      have : ix.toNat < n._fieldcount := by omega
      omega
    exact hb f hmem
  · rw [List.getD_eq_default _ _ (by omega)] at hf
    rw [← hf]
    decide

/-- The buffer use of `get` on a valid index. -/
theorem get_valid_bounds {n : Nvm} (e : Eeprom) {ix : Int} {f : NvmField}
    (hf : n.field ix = some f) (hd : strlen f.dft ≤ f.len) :
    (n.get e ix).length ≤ f.len + 1 ∧ (n.getStr e ix).length ≤ f.len := by
  obtain ⟨hv, hfd⟩ := field_eq_some hf
  unfold Nvm.getStr
  rw [get_valid n e ix hv, hfd]
  split
  · rename_i h
    refine ⟨?_, ?_⟩
    · simp only [List.length_append, readBytes_length, List.length_singleton]
      omega
    · have := cstr_append_zero_length
        (readBytes e (n._fieldstarts.getD ix.toNat 0 + 1) (e (n._fieldstarts.getD ix.toNat 0)).val) []
      rw [readBytes_length] at this
      omega
  · refine ⟨?_, ?_⟩
    · rw [strcpy_length]
      split
      · rw [readBytes_length]; omega
      · simp only [List.length_nil]; omega
    · rw [cstr_strcpy]
      exact hd

theorem put_inside {n : Nvm} (e : Eeprom) {ix : Int} {f : NvmField} (val : List Byte)
    (hf : n.field ix = some f) (hL : putLen f.len val + 3 ≤ 4294967296)
    (k : Nat) (hk : k < putLen f.len val + 3) :
    (n.put e ix val) (n.offset ix + k) = (record f.len val).getD k 0 := by
  obtain ⟨hv, hfd⟩ := field_eq_some hf
  rw [put_valid n e ix val hv, hfd]
  unfold Nvm.offset
  exact writeBytes_inside _ _ _ k (by rw [record_length]; exact hk)
    (by rw [record_length]; exact hL)

theorem valid_index_eq {n : Nvm} {ix : Int} {f : NvmField} (hf : n.field ix = some f) :
    ∃ i : Nat, ix = i ∧ i < n._fieldcount := by
  obtain ⟨hv, _⟩ := field_eq_some hf
  exact ⟨ix.toNat, by omega, by omega⟩

/-- Without wrap-around the record written by `put` lies inside the region of its field,
and the regions follow each other in index order. -/
theorem region_bounds (fields : List NvmField) (hfit : layoutSize fields < 2147483648)
    (i : Nat) (f : NvmField) (hf : (Nvm.new fields).field i = some f) :
    (Nvm.new fields).offset i = sizeUpTo fields i
    ∧ (Nvm.new fields).offset ((i : Int) + 1) = sizeUpTo fields (i + 1)
    ∧ sizeUpTo fields (i + 1) = sizeUpTo fields i + (f.len + 3) := by
  obtain ⟨hi, hfd⟩ := field_natCast hf
  have hlen := countFields_le_length fields
  have h1 := offset_eq_sizeUpTo fields hfit (i + 1) (by omega)
  push_cast at h1
  refine ⟨offset_eq_sizeUpTo fields hfit i (by omega), h1, ?_⟩
  rw [sizeUpTo_succ fields i (by omega), hfd]

/-- Without wrap-around the region of a field lies in the range of `int`. -/
theorem region_in_range (fields : List NvmField) (hfit : layoutSize fields < 2147483648)
    (i : Nat) (f : NvmField) (hf : (Nvm.new fields).field i = some f) :
    0 ≤ (Nvm.new fields).offset i
    ∧ (Nvm.new fields).offset i + ((f.len + 3 : Nat) : Int) < 2147483648 := by
  obtain ⟨r1, _, r3⟩ := region_bounds fields hfit i f hf
  obtain ⟨hi, _⟩ := field_natCast hf
  have hm := sizeUpTo_mono fields (j := i + 1) (k := countFields fields) (by omega)
  unfold layoutSize at hfit
  rw [r1]
  push_cast
  omega

/-- Without wrap-around `put` leaves the bytes before and behind its record as they were. -/
theorem put_outside_range (fields : List NvmField) (hfit : layoutSize fields < 2147483648)
    (e : Eeprom) {ix : Int} {f : NvmField} (v : List Byte)
    (hf : (Nvm.new fields).field ix = some f) (x : Int)
    (h0 : -2147483648 ≤ x) (h1 : x < 2147483648)
    (hx : x < (Nvm.new fields).offset ix
      ∨ (Nvm.new fields).offset ix + ((putLen f.len v + 3 : Nat) : Int) ≤ x) :
    ((Nvm.new fields).put e ix v) x = e x := by
  obtain ⟨i, hi, _⟩ := valid_index_eq hf
  subst hi
  obtain ⟨q0, q1⟩ := region_in_range fields hfit i f hf
  have hple := putLen_le f.len v
  apply put_outside e v hf
  intro k hk
  push_cast at q1 hx
  unfold wrapInt
  omega

/-- Without wrap-around the bytes of the record written by `put` are in the cells
`offset .. offset + L + 2`. -/
theorem put_cell_inside (fields : List NvmField) (hfit : layoutSize fields < 2147483648)
    (e : Eeprom) {ix : Int} {f : NvmField} (v : List Byte)
    (hf : (Nvm.new fields).field ix = some f) (k : Nat) (hk : k < putLen f.len v + 3) :
    ((Nvm.new fields).put e ix v).cell ((Nvm.new fields).offset ix + k)
      = (record f.len v).getD k 0 := by
  obtain ⟨i, hi, _⟩ := valid_index_eq hf
  subst hi
  obtain ⟨q0, q1⟩ := region_in_range fields hfit i f hf
  have hple := putLen_le f.len v
  push_cast at q1
  rw [← app_of_range _ (by omega) (by omega)]
  exact put_inside e v hf (by omega) k hk

/-- Without wrap-around `put` leaves every cell before and behind its record as it was. -/
theorem put_cell_outside (fields : List NvmField) (hfit : layoutSize fields < 2147483648)
    (e : Eeprom) {ix : Int} {f : NvmField} (v : List Byte)
    (hf : (Nvm.new fields).field ix = some f) (x : Int)
    (hx : x < (Nvm.new fields).offset ix
      ∨ (Nvm.new fields).offset ix + ((putLen f.len v + 3 : Nat) : Int) ≤ x) :
    ((Nvm.new fields).put e ix v).cell x = e.cell x := by
  obtain ⟨i, hi, _⟩ := valid_index_eq hf
  subst hi
  obtain ⟨q0, q1⟩ := region_in_range fields hfit i f hf
  have hple := putLen_le f.len v
  obtain ⟨hv, hfd⟩ := field_eq_some hf
  rw [put_valid _ e _ v hv, hfd]
  apply writeBytes_cell_outside
  rw [record_length]
  intro k hk
  unfold Nvm.offset at q0 q1 hx
  push_cast at q1 hx
  unfold wrapInt
  omega

/-! ## The claims -/

/-- C1 (round trip): for a layout whose fields all have `len ≤ NVM_MAX_LENZ-1 = 64`, any prior
device content, a valid index `ix` (one for which `field(ix)` yields a descriptor `f`), and a zero-free value
`v` with `length v ≤ f.len`, the string that `get(ix)` yields after `put(ix, v)` is exactly `v`. -/
theorem C1_roundtrip (fields : List NvmField) (e : Eeprom) (ix : Int) (f : NvmField)
    (v : List Byte)
    (hb : LenBounded (Nvm.new fields))
    (hf : (Nvm.new fields).field ix = some f)
    (hz : ZeroFree v) (hv : v.length ≤ f.len) :
    (Nvm.new fields).getStr ((Nvm.new fields).put e ix v) ix = v := by
  have h64 := len_le_of_lenBounded hb hf
  rw [getStr_put_same e v hf (by omega) hz, putLen_of_fits hz hv]
  exact List.take_length v

/-- Witness of C1 on the usage example: "MyWifi" stored in field 0 ("ssid") of an erased
device is read back unchanged. -/
theorem C1_roundtrip_witness :
    (Nvm.new wifiFields).getStr ((Nvm.new wifiFields).put erasedFF 0 (bytes "MyWifi")) 0
      = bytes "MyWifi" :=
  C1_roundtrip wifiFields erasedFF 0 { name := some (bytes "ssid"), dft := [], len := 32 }
    (bytes "MyWifi") (by decide) (by decide) (by decide) (by decide)

/-- C2 (truncation): for a layout whose fields all have `len ≤ 64`, any prior device content,
a valid index `ix` with descriptor `f`, and a zero-free value `v` longer than `f.len`, the
string that `get(ix)` yields after `put(ix, v)` is the first `f.len` bytes of `v`, and the
length byte stored at the field start is `f.len`. -/
theorem C2_truncation (fields : List NvmField) (e : Eeprom) (ix : Int) (f : NvmField)
    (v : List Byte)
    (hb : LenBounded (Nvm.new fields))
    (hf : (Nvm.new fields).field ix = some f)
    (hz : ZeroFree v) (hv : v.length > f.len) :
    (Nvm.new fields).getStr ((Nvm.new fields).put e ix v) ix = v.take f.len
    ∧ (((Nvm.new fields).put e ix v) ((Nvm.new fields).offset ix)).val = f.len := by
  have h64 := len_le_of_lenBounded hb hf
  refine ⟨?_, ?_⟩
  · rw [getStr_put_same e v hf (by omega) hz, putLen_of_long hz hv]
  · rw [(put_stored e v hf (by rw [putLen_of_long hz hv]; omega)).1, putLen_of_long hz hv,
      toByte_val_of_lt (by omega)]

/-- Witness of C2: "8080808" stored in the field "port" of length 5 is read back as "80808",
with length byte 5. -/
theorem C2_truncation_witness :
    (Nvm.new sampleFields).getStr ((Nvm.new sampleFields).put erased00 1 (bytes "8080808")) 1
      = (bytes "8080808").take 5
    ∧ (((Nvm.new sampleFields).put erased00 1 (bytes "8080808"))
        ((Nvm.new sampleFields).offset 1)).val = 5 :=
  C2_truncation sampleFields erased00 1 { name := some (bytes "port"), dft := bytes "80", len := 5 }
    (bytes "8080808") (by decide) (by decide) (by decide) (by decide)

/-- C3 (default on unwritten field): for every layout and every valid index `ix` with
descriptor `f`, on an erased device (every byte 0x00, or every byte 0xFF) on which no `put`
has been done, the string that `get(ix)` yields is the default of the field. -/
theorem C3_default_on_erased (fields : List NvmField) (e : Eeprom) (ix : Int) (f : NvmField)
    (hf : (Nvm.new fields).field ix = some f)
    (he : (∀ a, e a = 0x00) ∨ (∀ a, e a = 0xFF)) :
    (Nvm.new fields).getStr e ix = cstr f.dft := by
  apply get_reject hf
  rcases he with he | he
  · intro h
    have h3 := h.2.2
    rw [he, he] at h3
    simp only [Fin.val_zero, readBytes, xorAll, List.foldl_nil] at h3
    revert h3
    decide
  · intro h
    have h2 := h.2.1
    rw [he] at h2
    revert h2
    decide

/-- Witness of C3: on the all-0xFF device, field "host" reads as its default "nvm". -/
theorem C3_default_on_erased_witness :
    (Nvm.new sampleFields).getStr erasedFF 0 = cstr (bytes "nvm") :=
  C3_default_on_erased sampleFields erasedFF 0
    { name := some (bytes "host"), dft := bytes "nvm", len := 8 }
    (by decide) (Or.inr (fun _ => rfl))

/-- C4 (default on corruption), as amended: for a layout whose fields all have `len ≤ 64`,
any prior device content, a valid index `ix` with descriptor `f` and a zero-free value `v`,
with `L = min (length v) f.len`: after `put(ix, v)`, replacing by a different value any
payload byte, the terminator byte or the checksum byte of the record (an address in
`offset+1 .. offset+2+L`), or replacing the length byte (at `offset`) by a value below `L`
or above `f.len`, makes the next `get(ix)` yield the default of the field. -/
theorem C4_default_on_corruption (fields : List NvmField) (e : Eeprom) (ix : Int)
    (f : NvmField) (v : List Byte) (a : Int) (b : Byte)
    (hb : LenBounded (Nvm.new fields))
    (hf : (Nvm.new fields).field ix = some f)
    (hz : ZeroFree v)
    (hne : b ≠ ((Nvm.new fields).put e ix v) a)
    (ha : (a = (Nvm.new fields).offset ix ∧ (b.val < min v.length f.len ∨ f.len < b.val))
        ∨ ((Nvm.new fields).offset ix < a
            ∧ a ≤ (Nvm.new fields).offset ix + 2 + (min v.length f.len : Nat))) :
    (Nvm.new fields).getStr (corrupt ((Nvm.new fields).put e ix v) a b) ix = cstr f.dft := by
  have h64 := len_le_of_lenBounded hb hf
  have hL : putLen f.len v = min v.length f.len := by
    rw [putLen_eq_min, strlen_of_zeroFree hz]
  rw [← hL] at ha
  rcases ha with ⟨ha, hlen⟩ | ⟨ha1, ha2⟩
  · subst ha
    exact fault_length e v hf (by omega) hz b hlen
  · obtain ⟨j, hj⟩ : ∃ j : Nat, a = (Nvm.new fields).offset ix + 1 + j :=
      ⟨(a - (Nvm.new fields).offset ix - 1).toNat, by omega⟩
    subst hj
    by_cases h1 : j < putLen f.len v
    · exact fault_payload e v hf (by omega) j h1 b hne
    · by_cases h2 : j = putLen f.len v
      · subst h2
        exact fault_terminator e v hf (by omega) b hne
      · have h3 : j = putLen f.len v + 1 := by omega
        have h4 : (Nvm.new fields).offset ix + 1 + ((putLen f.len v + 1 : Nat) : Int)
            = (Nvm.new fields).offset ix + 2 + putLen f.len v := by push_cast; ring
        subst h3
        rw [h4] at hne ⊢
        exact fault_checksum e v hf (by omega) b hne

/-- Witness of C4: after "8080" is stored in the field "port" (default "80", record at
address 11), changing the payload byte at address 13 to 0x39 makes `get` yield "80". -/
theorem C4_default_on_corruption_witness :
    (Nvm.new sampleFields).getStr
        (corrupt ((Nvm.new sampleFields).put erasedFF 1 (bytes "8080")) 13 0x39) 1
      = cstr (bytes "80") :=
  C4_default_on_corruption sampleFields erasedFF 1
    { name := some (bytes "port"), dft := bytes "80", len := 5 } (bytes "8080") 13 0x39
    (by decide) (by decide) (by decide) (by decide) (Or.inr (by decide))

/-- C4 as stated fails: in the layout `sampleFields`, field 0 ("host", length 8, default
"nvm") has its record at address 0.  On `staleDevice`, after `put(0, "a")` the length byte is
1; replacing it by 3 makes `get(0)` accept the bytes up to the stale zero at address 4 with
the stale byte at address 5 as checksum, and yield "a" instead of the default "nvm". -/
theorem C4_counterexample :
    LenBounded (Nvm.new sampleFields)
    ∧ (Nvm.new sampleFields).field 0
        = some { name := some (bytes "host"), dft := bytes "nvm", len := 8 }
    ∧ ZeroFree (bytes "a")
    ∧ (Nvm.new sampleFields).offset 0 = 0
    ∧ ((Nvm.new sampleFields).put staleDevice 0 (bytes "a")) 0 = 1
    ∧ (Nvm.new sampleFields).getStr
        (corrupt ((Nvm.new sampleFields).put staleDevice 0 (bytes "a")) 0 3) 0 = bytes "a"
    ∧ (Nvm.new sampleFields).getStr
        (corrupt ((Nvm.new sampleFields).put staleDevice 0 (bytes "a")) 0 3) 0
        ≠ cstr (bytes "nvm") := by
  decide

/-- C5 (checksum-byte corruption): for a layout whose fields all have `len ≤ 64`, a valid
index `ix` with descriptor `f` and a zero-free value `v`, after `put(ix, v)` changing only the
stored checksum byte, at `offset + 2 + L` with `L = min (length v) f.len`, to any different
value makes `get(ix)` yield the default; and in the usage example (fields "ssid" and
"password" of length 32 with default ""), after `put("ssid", "MyWifi")` on any device, any
change of the checksum byte (address 8) makes `get("ssid")` yield "". -/
theorem C5_checksum_fault (fields : List NvmField) (e : Eeprom) (ix : Int)
    (f : NvmField) (v : List Byte) (b : Byte)
    (hb : LenBounded (Nvm.new fields))
    (hf : (Nvm.new fields).field ix = some f)
    (hz : ZeroFree v)
    (hne : b ≠ ((Nvm.new fields).put e ix v)
                ((Nvm.new fields).offset ix + 2 + (min v.length f.len : Nat))) :
    (Nvm.new fields).getStr
        (corrupt ((Nvm.new fields).put e ix v)
          ((Nvm.new fields).offset ix + 2 + (min v.length f.len : Nat)) b) ix = cstr f.dft
    ∧ (∀ (e0 : Eeprom) (c : Byte),
        c ≠ ((Nvm.new wifiFields).putByName e0 (bytes "ssid") (bytes "MyWifi")) 8 →
        cstr ((Nvm.new wifiFields).getByName
          (corrupt ((Nvm.new wifiFields).putByName e0 (bytes "ssid") (bytes "MyWifi")) 8 c)
          (bytes "ssid")) = []) := by
  have h64 := len_le_of_lenBounded hb hf
  have hL : putLen f.len v = min v.length f.len := by
    rw [putLen_eq_min, strlen_of_zeroFree hz]
  rw [← hL] at hne ⊢
  refine ⟨fault_checksum e v hf (by omega) b hne, ?_⟩
  intro e0 c hc
  have hfind : (Nvm.new wifiFields).find (bytes "ssid") = 0 := by decide
  have hfld : (Nvm.new wifiFields).field 0
      = some { name := some (bytes "ssid"), dft := [], len := 32 } := by decide
  unfold Nvm.getByName Nvm.putByName at *
  rw [hfind] at hc ⊢
  exact fault_checksum e0 (bytes "MyWifi") hfld (by decide) c hc

/-- Witness of C5: "MyWifi" stored in "ssid" on an erased device has checksum 0xA9 at
address 8; with 0x00 there instead, `get` yields the default "". -/
theorem C5_checksum_fault_witness :
    (Nvm.new wifiFields).getStr
        (corrupt ((Nvm.new wifiFields).put erasedFF 0 (bytes "MyWifi"))
          ((Nvm.new wifiFields).offset 0 + 2 + (min (bytes "MyWifi").length 32 : Nat)) 0) 0
      = cstr [] :=
  (C5_checksum_fault wifiFields erasedFF 0 { name := some (bytes "ssid"), dft := [], len := 32 }
    (bytes "MyWifi") 0 (by decide) (by decide) (by decide) (by decide)).1

/-- C6 (offset partition), as amended: for every layout whose records fit the range of `int`
(the sum of `len + 3` over its fields is below 2^31), the offset table is strictly
increasing, the byte ranges `[offset i, offset (i+1))` of two different fields are disjoint,
their union is exactly `[0, offset count)`, and `offset count` is the capacity requested from
the device. -/
theorem C6_offset_partition (fields : List NvmField)
    (hfit : layoutSize fields < 2147483648) :
    (∀ i j : Nat, i < j → (j : Int) ≤ (Nvm.new fields).count →
        (Nvm.new fields).offset i < (Nvm.new fields).offset j)
    ∧ (∀ i j : Nat, (i : Int) < (Nvm.new fields).count → (j : Int) < (Nvm.new fields).count →
        i ≠ j → ∀ a : Int,
          ¬ (((Nvm.new fields).offset i ≤ a ∧ a < (Nvm.new fields).offset (i + 1))
            ∧ ((Nvm.new fields).offset j ≤ a ∧ a < (Nvm.new fields).offset (j + 1))))
    ∧ (∀ a : Int, (0 ≤ a ∧ a < (Nvm.new fields).offset (Nvm.new fields).count)
        ↔ ∃ i : Nat, (i : Int) < (Nvm.new fields).count
            ∧ (Nvm.new fields).offset i ≤ a ∧ a < (Nvm.new fields).offset (i + 1))
    ∧ (Nvm.new fields).eepromSize = (Nvm.new fields).offset (Nvm.new fields).count := by
  have hc : (Nvm.new fields).count = (countFields fields : Int) := rfl
  have hlen := countFields_le_length fields
  have hoff : ∀ k : Nat, k ≤ countFields fields →
      (Nvm.new fields).offset k = sizeUpTo fields k := offset_eq_sizeUpTo fields hfit
  have hoff1 : ∀ k : Nat, k < countFields fields →
      (Nvm.new fields).offset ((k : Int) + 1) = sizeUpTo fields (k + 1) := by
    intro k hk
    have := hoff (k + 1) (by omega)
    push_cast at this
    exact this
  have hinc : ∀ i j : Nat, i < j → j ≤ countFields fields →
      sizeUpTo fields i < sizeUpTo fields j :=
    fun i j hij hj => sizeUpTo_strictMono fields hij (by omega)
  rw [hc]
  refine ⟨?_, ?_, ?_, ?_⟩
  · intro i j hij hj
    have hj2 : j ≤ countFields fields := by omega
    rw [hoff i (by omega), hoff j hj2]
    exact_mod_cast hinc i j hij hj2
  · intro i j hi hj hne a
    have hi2 : i < countFields fields := by omega
    have hj2 : j < countFields fields := by omega
    rw [hoff i (by omega), hoff j (by omega), hoff1 i hi2, hoff1 j hj2]
    rcases Nat.lt_or_gt_of_ne hne with h | h
    · have := sizeUpTo_mono fields (j := i + 1) (k := j) (by omega)
      omega
    · have := sizeUpTo_mono fields (j := j + 1) (k := i) (by omega)
      omega
  · intro a
    rw [hoff _ (le_refl _)]
    constructor
    · rintro ⟨h0, h1⟩
      obtain ⟨i, hi, h2, h3⟩ := exists_record_of_lt fields _ hlen a.toNat (by omega)
      refine ⟨i, by omega, ?_, ?_⟩
      · rw [hoff i (by omega)]; omega
      · rw [hoff1 i hi]; omega
    · rintro ⟨i, hi, h2, h3⟩
      have hi2 : i < countFields fields := by omega
      rw [hoff i (by omega)] at h2
      rw [hoff1 i hi2] at h3
      have := sizeUpTo_mono fields (j := i + 1) (k := countFields fields) (by omega)
      omega
  · unfold Nvm.eepromSize Nvm.offset
    simp [Nvm.new]

/-- Witness of C6 on the usage example: the record of "ssid" starts before that of
"password". -/
theorem C6_offset_partition_witness :
    (Nvm.new wifiFields).offset (0 : Nat) < (Nvm.new wifiFields).offset (1 : Nat) :=
  (C6_offset_partition wifiFields (by decide)).1 0 1 (by decide) (by decide)

/-- C6 as stated fails: a layout with a single field of length 2^32 - 3 = 4294967293 has the
offset table `[0, 0]`, since `0 + 1 + 4294967293 + 1 + 1` wraps to 0 in 32-bit arithmetic;
the table is not strictly increasing and the range of field 0 is empty. -/
theorem C6_counterexample :
    (Nvm.new wrapFields).count = 1
    ∧ (Nvm.new wrapFields).offset 0 = 0
    ∧ (Nvm.new wrapFields).offset 1 = 0
    ∧ ¬ ((Nvm.new wrapFields).offset 0 < (Nvm.new wrapFields).offset 1) := by
  decide

/-- C7 (offset table definition), as amended: for every layout, `count()` is the number of
descriptors before the first one with a null name, `offset 0 = 0`, and the capacity passed
to the device is `offset count`; and when the records fit the range of `int` (the sum of
`len + 3` over the fields is below 2^31), `offset (i+1) = offset i + len i + 3` for every
field `i`, and `offset k` is the sum of `len i + 3` over `i < k`, for every `k ≤ count`. -/
theorem C7_offset_table (fields : List NvmField) :
    (Nvm.new fields).count = ((fields.takeWhile (fun f => f.name.isSome)).length : Int)
    ∧ (Nvm.new fields).offset 0 = 0
    ∧ (Nvm.new fields).eepromSize = (Nvm.new fields).offset (Nvm.new fields).count
    ∧ (layoutSize fields < 2147483648 →
        (∀ (i : Nat) (f : NvmField), (Nvm.new fields).field i = some f →
          (Nvm.new fields).offset (i + 1) = (Nvm.new fields).offset i + f.len + 3)
        ∧ (∀ k : Nat, (k : Int) ≤ (Nvm.new fields).count →
          (Nvm.new fields).offset k = (((fields.take k).map (fun f => f.len + 3)).sum : Nat))) := by
  have hc : (Nvm.new fields).count = (countFields fields : Int) := rfl
  refine ⟨?_, rfl, ?_, ?_⟩
  · rw [hc, countFields_eq_takeWhile]
  · unfold Nvm.eepromSize Nvm.offset
    simp [Nvm.new, Nvm.count]
  · intro hfit
    have hlen := countFields_le_length fields
    refine ⟨?_, ?_⟩
    · intro i f hf
      obtain ⟨hi, hfd⟩ := field_natCast hf
      have h1 := offset_eq_sizeUpTo fields hfit (i + 1) (by omega)
      have h0 := offset_eq_sizeUpTo fields hfit i (by omega)
      push_cast at h1
      rw [h1, h0, sizeUpTo_succ fields i (by omega), hfd]
      push_cast
      ring
    · intro k hk
      rw [hc] at hk
      exact offset_eq_sizeUpTo fields hfit k (by omega)

/-- Witness of C7 on the usage example: "password" (field 1) starts at 35 = 0 + 32 + 3. -/
theorem C7_offset_table_witness :
    (Nvm.new wifiFields).offset ((0 : Nat) + 1) = (Nvm.new wifiFields).offset (0 : Nat) + 32 + 3 :=
  ((C7_offset_table wifiFields).2.2.2 (by decide)).1 0
    { name := some (bytes "ssid"), dft := [], len := 32 } (by decide)

/-- C7 as stated fails: a layout with a single field of length 2^32 - 1 = 4294967295 has
`offset 1 = 2`, since `0 + 1 + 4294967295 + 1 + 1` wraps to 2 in 32-bit arithmetic, and not
`offset 0 + len 0 + 3 = 4294967298`. -/
theorem C7_counterexample :
    (Nvm.new maxLenFields).field 0
        = some { name := some (bytes "a"), dft := [], len := 4294967295 }
    ∧ (Nvm.new maxLenFields).offset 0 = 0
    ∧ (Nvm.new maxLenFields).offset 1 = 2
    ∧ (Nvm.new maxLenFields).offset 1 ≠ (Nvm.new maxLenFields).offset 0 + 4294967295 + 3 := by
  decide

/-- C9 (idempotence of `put`): for every layout, prior device content, index `ix` (valid or
not) and value `v`, the device after `put(ix, v)` twice is identical, byte for byte, to the
device after a single `put(ix, v)`, and `get(ix)` writes the same bytes in both. -/
theorem C9_put_idempotent (fields : List NvmField) (e : Eeprom) (ix : Int) (v : List Byte) :
    (Nvm.new fields).put ((Nvm.new fields).put e ix v) ix v = (Nvm.new fields).put e ix v
    ∧ (Nvm.new fields).get ((Nvm.new fields).put ((Nvm.new fields).put e ix v) ix v) ix
        = (Nvm.new fields).get ((Nvm.new fields).put e ix v) ix := by
  have h : (Nvm.new fields).put ((Nvm.new fields).put e ix v) ix v
      = (Nvm.new fields).put e ix v := by
    by_cases hv : ix < 0 ∨ ix ≥ (Nvm.new fields)._fieldcount
    · rw [put_invalid _ _ _ _ hv]
    · rw [put_valid _ _ _ _ hv, put_valid _ _ _ _ hv, writeBytes_idem]
  exact ⟨h, by rw [h]⟩

/-- C10 (output fits the buffer): for every layout that passes validation (`len ≤ 64` and
`strlen(dft) ≤ len` for all fields), every device content and every index `ix`, `get(ix)`
writes within the first `NVM_MAX_LENZ = 65` bytes of `val`, the string left there is at most
`NVM_MAX_LENZ - 1` bytes long, and for a valid index with descriptor `f` it is at most
`f.len` bytes long. -/
theorem C10_output_fits (fields : List NvmField) (e : Eeprom) (ix : Int)
    (hb : LenBounded (Nvm.new fields)) (hd : DftBounded (Nvm.new fields)) :
    ((Nvm.new fields).get e ix).length ≤ NVM_MAX_LENZ
    ∧ ((Nvm.new fields).getStr e ix).length ≤ NVM_MAX_LENZ - 1
    ∧ (∀ f : NvmField, (Nvm.new fields).field ix = some f →
        ((Nvm.new fields).getStr e ix).length ≤ f.len ∧ f.len ≤ NVM_MAX_LENZ - 1) := by
  by_cases hv : ix < 0 ∨ ix ≥ (Nvm.new fields)._fieldcount
  · have hnone : (Nvm.new fields).field ix = none := by
      unfold Nvm.field
      rw [if_pos hv]
    unfold Nvm.getStr
    rw [get_invalid _ _ _ hv, hnone]
    refine ⟨by decide, by decide, ?_⟩
    intro f hf
    cases hf
  · have hsome : (Nvm.new fields).field ix
        = some ((Nvm.new fields)._fields.getD ix.toNat default) := by
      unfold Nvm.field
      rw [if_neg hv]
    have h64 := len_le_of_lenBounded hb hsome
    have hdf := dft_le_of_dftBounded hd hsome
    obtain ⟨h1, h2⟩ := get_valid_bounds e hsome hdf
    have hN : NVM_MAX_LENZ = 65 := rfl
    refine ⟨by omega, by omega, ?_⟩
    intro f hf
    rw [hsome] at hf
    cases hf
    exact ⟨h2, by omega⟩

/-- Witness of C10: on the stale device, `get` of field "host" (length 8) leaves a string of
at most 8 bytes. -/
theorem C10_output_fits_witness :
    ((Nvm.new sampleFields).getStr staleDevice 0).length ≤ 8 ∧ 8 ≤ NVM_MAX_LENZ - 1 :=
  (C10_output_fits sampleFields staleDevice 0 (by decide) (by decide)).2.2
    { name := some (bytes "host"), dft := bytes "nvm", len := 8 } (by decide)

/-! ## Lookup by name -/

theorem findFrom_none (name : List Byte) (cnt : Nat) (ix : Int) (fields : List NvmField)
    (h : ∀ j : Nat, j < cnt → ¬ NameIs (fields.getD j default) name) :
    findFrom name cnt ix fields = -1 := by
  induction cnt generalizing ix fields with
  | zero => rfl
  | succ cnt ih =>
    have h0 := h 0 (by omega)
    have hd : fields.headD default = fields.getD 0 default := by cases fields <;> rfl
    unfold NameIs at h0
    simp only [findFrom, hd]
    rw [if_neg h0]
    apply ih
    intro j hj
    have := h (j + 1) (by omega)
    cases fields with
    | nil => simpa using this
    | cons f fs => simpa using this

theorem findFrom_first (name : List Byte) (cnt : Nat) (ix : Int) (fields : List NvmField)
    (r : Nat) (hr : r < cnt) (hm : NameIs (fields.getD r default) name)
    (hmin : ∀ j : Nat, j < r → ¬ NameIs (fields.getD j default) name) :
    findFrom name cnt ix fields = ix + r := by
  induction cnt generalizing ix fields r with
  | zero => omega
  | succ cnt ih =>
    have hd : fields.headD default = fields.getD 0 default := by cases fields <;> rfl
    simp only [findFrom, hd]
    cases r with
    | zero =>
      unfold NameIs at hm
      rw [if_pos hm]
      simp
    | succ r =>
      have h0 := hmin 0 (by omega)
      unfold NameIs at h0
      rw [if_neg h0]
      have htail : ∀ j : Nat, fields.tail.getD j default = fields.getD (j + 1) default := by
        intro j
        cases fields <;> simp
      rw [ih (ix + 1) fields.tail r (by omega) (by rw [htail]; exact hm)
        (fun j hj => by rw [htail]; exact hmin (j + 1) (by omega))]
      push_cast
      ring

/-- The first index with a property below a bound. -/
theorem exists_first {p : Nat → Prop} [DecidablePred p] {i : Nat} (hi : p i) :
    ∃ r : Nat, r ≤ i ∧ p r ∧ ∀ j : Nat, j < r → ¬ p j :=
  ⟨Nat.find ⟨i, hi⟩, Nat.find_min' _ hi, Nat.find_spec ⟨i, hi⟩,
    fun _ hj => Nat.find_min ⟨i, hi⟩ hj⟩

theorem find_of_first (n : Nvm) (name : List Byte) (r : Nat) (hr : r < n._fieldcount)
    (hm : n.hasName r name) (hmin : ∀ j : Nat, j < r → ¬ n.hasName j name) :
    n.find name = r := by
  unfold Nvm.find
  rw [findFrom_first name _ 0 _ r hr hm hmin]
  simp

theorem find_of_none (n : Nvm) (name : List Byte)
    (h : ∀ j : Nat, j < n._fieldcount → ¬ n.hasName j name) : n.find name = -1 :=
  findFrom_none name _ 0 _ h

/-- C11 (find returns the first match or not-found): for every layout and name, when some
field `i < count` has the name, `find(name)` is the smallest index `r < count` of a field with
that name (also when several fields share it); and `find(name) = -1` if and only if no
field has the name. -/
theorem C11_find_first_match (fields : List NvmField) (name : List Byte) :
    ((∃ i : Nat, (i : Int) < (Nvm.new fields).count ∧ (Nvm.new fields).hasName i name) →
      ∃ r : Nat, (Nvm.new fields).find name = r ∧ (r : Int) < (Nvm.new fields).count
        ∧ (Nvm.new fields).hasName r name
        ∧ ∀ j : Nat, j < r → ¬ (Nvm.new fields).hasName j name)
    ∧ ((Nvm.new fields).find name = -1 ↔
        ¬ ∃ i : Nat, (i : Int) < (Nvm.new fields).count ∧ (Nvm.new fields).hasName i name) := by
  have hc : (Nvm.new fields).count = ((Nvm.new fields)._fieldcount : Int) := rfl
  have hfirst : (∃ i : Nat, (i : Int) < (Nvm.new fields).count ∧ (Nvm.new fields).hasName i name) →
      ∃ r : Nat, (Nvm.new fields).find name = r ∧ (r : Int) < (Nvm.new fields).count
        ∧ (Nvm.new fields).hasName r name
        ∧ ∀ j : Nat, j < r → ¬ (Nvm.new fields).hasName j name := by
    rintro ⟨i, hi, hm⟩
    obtain ⟨r, hri, hr, hmin⟩ := exists_first (p := fun k => (Nvm.new fields).hasName k name) hm
    rw [hc] at hi ⊢
    exact ⟨r, find_of_first _ name r (by omega) hr hmin, by omega, hr, hmin⟩
  refine ⟨hfirst, ?_, ?_⟩
  · intro hneg hex
    obtain ⟨r, hr, _⟩ := hfirst hex
    rw [hr] at hneg
    omega
  · intro hno
    apply find_of_none
    intro j hj hm
    exact hno ⟨j, by rw [hc]; omega, hm⟩

/-- Witness of C11: in a layout where fields 1 and 2 are both named "id", `find("id")` is
the smaller index. -/
theorem C11_find_first_match_witness :
    ∃ r : Nat, (Nvm.new twinFields).find (bytes "id") = r ∧ (r : Int) < (Nvm.new twinFields).count
      ∧ (Nvm.new twinFields).hasName r (bytes "id")
      ∧ ∀ j : Nat, j < r → ¬ (Nvm.new twinFields).hasName j (bytes "id") :=
  (C11_find_first_match twinFields (bytes "id")).1 ⟨2, by decide, by decide⟩

/-- C12 (`put` usage error is a no-op): for every layout, device content and value `v`,
`put(ix, v)` with `ix < 0` or `ix ≥ count`, and `put(name, v)` with a name that no field has,
leave every device byte unchanged. -/
theorem C12_put_usage_error (fields : List NvmField) (e : Eeprom) (v : List Byte) :
    (∀ ix : Int, ix < 0 ∨ ix ≥ (Nvm.new fields).count → (Nvm.new fields).put e ix v = e)
    ∧ (∀ name : List Byte,
        (∀ i : Nat, (i : Int) < (Nvm.new fields).count → ¬ (Nvm.new fields).hasName i name) →
        (Nvm.new fields).putByName e name v = e) := by
  have hc : (Nvm.new fields).count = ((Nvm.new fields)._fieldcount : Int) := rfl
  refine ⟨fun ix hix => put_invalid _ e ix v hix, ?_⟩
  intro name hno
  unfold Nvm.putByName
  rw [find_of_none _ name (fun j hj => hno j (by rw [hc]; omega))]
  exact put_invalid _ e (-1) v (Or.inl (by omega))

/-- Witness of C12: `put(2, "x")` on the two-field usage example changes nothing. -/
theorem C12_put_usage_error_witness :
    (Nvm.new wifiFields).put staleDevice 2 (bytes "x") = staleDevice :=
  (C12_put_usage_error wifiFields staleDevice (bytes "x")).1 2 (by decide)

/-- C13 (`get` usage error yields the empty string): for every layout and device content,
`get(ix)` with `ix < 0` or `ix ≥ count`, and `get(name)` with a name that no field has, store
the empty string (a single zero byte) in `val`, whatever the device holds. -/
theorem C13_get_usage_error (fields : List NvmField) (e : Eeprom) :
    (∀ ix : Int, ix < 0 ∨ ix ≥ (Nvm.new fields).count →
        (Nvm.new fields).get e ix = [0] ∧ (Nvm.new fields).getStr e ix = []
        ∧ ∀ e2 : Eeprom, (Nvm.new fields).get e2 ix = (Nvm.new fields).get e ix)
    ∧ (∀ name : List Byte,
        (∀ i : Nat, (i : Int) < (Nvm.new fields).count → ¬ (Nvm.new fields).hasName i name) →
        (Nvm.new fields).getByName e name = [0] ∧ cstr ((Nvm.new fields).getByName e name) = []
        ∧ ∀ e2 : Eeprom,
            (Nvm.new fields).getByName e2 name = (Nvm.new fields).getByName e name) := by
  have hc : (Nvm.new fields).count = ((Nvm.new fields)._fieldcount : Int) := rfl
  have hinv : ∀ (e1 : Eeprom) (ix : Int), ix < 0 ∨ ix ≥ (Nvm.new fields).count →
      (Nvm.new fields).get e1 ix = [0] := fun e1 ix hix => get_invalid _ e1 ix hix
  refine ⟨?_, ?_⟩
  · intro ix hix
    refine ⟨hinv e ix hix, ?_, ?_⟩
    · unfold Nvm.getStr
      rw [hinv e ix hix]
      rfl
    · intro e2
      rw [hinv e ix hix, hinv e2 ix hix]
  · intro name hno
    have hfind := find_of_none _ name (fun j hj => hno j (by rw [hc]; omega))
    unfold Nvm.getByName
    rw [hfind]
    have hm : (-1 : Int) < 0 ∨ (-1 : Int) ≥ (Nvm.new fields).count := Or.inl (by omega)
    refine ⟨hinv e _ hm, ?_, ?_⟩
    · rw [hinv e _ hm]
      rfl
    · intro e2
      rw [hinv e _ hm, hinv e2 _ hm]

/-- Witness of C13: `get(-1)` on the usage example stores the empty string. -/
theorem C13_get_usage_error_witness :
    (Nvm.new wifiFields).get erasedFF (-1) = [0] ∧ (Nvm.new wifiFields).getStr erasedFF (-1) = []
      ∧ ∀ e2 : Eeprom, (Nvm.new wifiFields).get e2 (-1) = (Nvm.new wifiFields).get erasedFF (-1) :=
  (C13_get_usage_error wifiFields erasedFF).1 (-1) (by decide)

/-- C14 (name/index equivalence): for every layout, device content and name, `get(name)`
writes the same output as `get(find(name))` and `put(name, v)` leaves the same device as
`put(find(name), v)`; in particular, when `r` is the first field with the name, they are
`get(r)` and `put(r, v)`. -/
theorem C14_name_index_equivalence (fields : List NvmField) (e : Eeprom) (name v : List Byte) :
    (Nvm.new fields).getByName e name = (Nvm.new fields).get e ((Nvm.new fields).find name)
    ∧ (Nvm.new fields).putByName e name v
        = (Nvm.new fields).put e ((Nvm.new fields).find name) v
    ∧ (∀ r : Nat, (r : Int) < (Nvm.new fields).count → (Nvm.new fields).hasName r name →
        (∀ j : Nat, j < r → ¬ (Nvm.new fields).hasName j name) →
        (Nvm.new fields).getByName e name = (Nvm.new fields).get e r
        ∧ (Nvm.new fields).putByName e name v = (Nvm.new fields).put e r v) := by
  have hc : (Nvm.new fields).count = ((Nvm.new fields)._fieldcount : Int) := rfl
  refine ⟨rfl, rfl, ?_⟩
  intro r hr hm hmin
  have hfind := find_of_first _ name r (by rw [hc] at hr; omega) hm hmin
  unfold Nvm.getByName Nvm.putByName
  rw [hfind]
  exact ⟨rfl, rfl⟩

/-- Witness of C14: on the usage example "password" is field 1, so `get("password")` is
`get(1)` and `put("password", v)` is `put(1, v)`. -/
theorem C14_name_index_equivalence_witness :
    (Nvm.new wifiFields).getByName erasedFF (bytes "password") = (Nvm.new wifiFields).get erasedFF (1 : Nat)
      ∧ (Nvm.new wifiFields).putByName erasedFF (bytes "password") (bytes "pw")
          = (Nvm.new wifiFields).put erasedFF (1 : Nat) (bytes "pw") :=
  (C14_name_index_equivalence wifiFields erasedFF (bytes "password") (bytes "pw")).2.2 1
    (by decide) (by decide) (by decide)

/-! ## The decision of `get` and the extent of `put` -/

/-- C16 (extent of a `put`), as amended: for every layout whose records fit the range of
`int` (the sum of `len + 3` over its fields is below 2^31), valid index `ix` with descriptor
`f` and value `v`, with `L = min (strlen v) f.len`: `put(ix, v)` writes the `L + 3` bytes
`offset .. offset+L+2`; their content afterwards is the record of `v` (length byte, payload,
zero, checksum), determined by `v` and `f.len` alone and the same for any two prior device
contents; every other byte of the device, also a byte of the field region behind the
record, keeps its prior value. -/
theorem C16_put_overwrites_record (fields : List NvmField) (e e2 : Eeprom) (ix : Int)
    (f : NvmField) (v : List Byte)
    (hfit : layoutSize fields < 2147483648)
    (hf : (Nvm.new fields).field ix = some f) :
    (∀ k : Nat, k < min (strlen v) f.len + 3 →
        ((Nvm.new fields).put e ix v).cell ((Nvm.new fields).offset ix + k)
          = (record f.len v).getD k 0
        ∧ ((Nvm.new fields).put e ix v).cell ((Nvm.new fields).offset ix + k)
          = ((Nvm.new fields).put e2 ix v).cell ((Nvm.new fields).offset ix + k))
    ∧ (∀ x : Int,
        (x < (Nvm.new fields).offset ix
          ∨ (Nvm.new fields).offset ix + (min (strlen v) f.len + 3 : Nat) ≤ x) →
        ((Nvm.new fields).put e ix v).cell x = e.cell x) := by
  rw [← putLen_eq_min]
  refine ⟨?_, ?_⟩
  · intro k hk
    rw [put_cell_inside fields hfit e v hf k hk, put_cell_inside fields hfit e2 v hf k hk]
    exact ⟨rfl, rfl⟩
  · intro x hx
    exact put_cell_outside fields hfit e v hf x hx

/-- Witness of C16: after "MyWifi" is stored in "ssid" (record at 0 .. 8) on an erased
device, address 9 still holds 0xFF. -/
theorem C16_put_overwrites_record_witness :
    ((Nvm.new wifiFields).put erasedFF 0 (bytes "MyWifi")).cell 9 = erasedFF.cell 9 :=
  (C16_put_overwrites_record wifiFields erasedFF erased00 0
    { name := some (bytes "ssid"), dft := [], len := 32 } (bytes "MyWifi") (by decide)
    (by decide)).2 9 (Or.inr (by decide))

/-- C16 as stated fails: on the usage example the region of "ssid" is `[0, 35)`;
`put(0, "MyWifi")` writes the addresses 0 .. 8 only, so address 9 of the region holds 0xFF
after the put on an all-0xFF device and 0x00 after the put on an all-0x00 device. -/
theorem C16_counterexample :
    (Nvm.new wifiFields).field 0 = some { name := some (bytes "ssid"), dft := [], len := 32 }
    ∧ (Nvm.new wifiFields).offset 0 ≤ 9 ∧ 9 < (Nvm.new wifiFields).offset 1
    ∧ ((Nvm.new wifiFields).put erasedFF 0 (bytes "MyWifi")) 9 = 0xFF
    ∧ ((Nvm.new wifiFields).put erased00 0 (bytes "MyWifi")) 9 = 0x00
    ∧ ((Nvm.new wifiFields).put erasedFF 0 (bytes "MyWifi")) 9
        ≠ ((Nvm.new wifiFields).put erased00 0 (bytes "MyWifi")) 9 := by
  decide

/-! ## A single fault anywhere -/

/-- A fault in the payload, terminator or checksum of a freshly stored record. -/
theorem fault_tail {n : Nvm} (e : Eeprom) {ix : Int} {f : NvmField} (v : List Byte)
    (hf : n.field ix = some f) (h256 : f.len < 256) (j : Nat) (hj : j ≤ putLen f.len v + 1)
    (b : Byte) (hne : b ≠ (n.put e ix v) (n.offset ix + 1 + j)) :
    n.getStr (corrupt (n.put e ix v) (n.offset ix + 1 + j) b) ix = cstr f.dft := by
  by_cases h1 : j < putLen f.len v
  · exact fault_payload e v hf h256 j h1 b hne
  · by_cases h2 : j = putLen f.len v
    · subst h2
      exact fault_terminator e v hf h256 b hne
    · have h3 : j = putLen f.len v + 1 := by omega
      have h4 : n.offset ix + 1 + ((putLen f.len v + 1 : Nat) : Int)
          = n.offset ix + 2 + putLen f.len v := by push_cast; ring
      subst h3
      rw [h4] at hne ⊢
      exact fault_checksum e v hf h256 b hne

theorem corrupt_congr (e : Eeprom) {a a2 : Int} (h : wrapInt a = wrapInt a2) (b : Byte) :
    corrupt e a b = corrupt e a2 b := by
  unfold corrupt
  rw [h]

/-- A change at an address that is none of the addresses of the stored record does not
affect `get`. -/
theorem fault_elsewhere {n : Nvm} (e : Eeprom) {ix : Int} {f : NvmField} (v : List Byte)
    (hf : n.field ix = some f) (h256 : f.len < 256) (a : Int) (b : Byte)
    (ha : ∀ k : Nat, k < putLen f.len v + 3 → wrapInt a ≠ wrapInt (n.offset ix + k)) :
    n.get (corrupt (n.put e ix v) a b) ix = v.take (putLen f.len v) ++ [0] := by
  have hL : putLen f.len v < 256 := Nat.lt_of_le_of_lt (putLen_le _ _) h256
  obtain ⟨p0, p1, p2, p3⟩ := put_stored (n := n) e v hf hL
  have hk0 : wrapInt (n.offset ix) ≠ wrapInt a := by
    have := ha 0 (by omega)
    simp only [Nat.cast_zero, add_zero] at this
    exact fun h => this h.symm
  have hk1 : ∀ j : Nat, j < putLen f.len v + 2 →
      wrapInt (n.offset ix + 1 + j) ≠ wrapInt a := by
    intro j hj h
    have := ha (1 + j) (by omega)
    push_cast at this
    rw [← add_assoc] at this
    exact this h.symm
  have h0 : (corrupt (n.put e ix v) a b (n.offset ix)).val = putLen f.len v := by
    rw [corrupt_other _ _ hk0, p0, toByte_val_of_lt hL]
  have h1 : readBytes (corrupt (n.put e ix v) a b) (n.offset ix + 1) (putLen f.len v)
      = v.take (putLen f.len v) := by
    rw [← p1]
    apply readBytes_congr
    intro j hj
    exact corrupt_other _ _ (hk1 j (by omega))
  have h2 : corrupt (n.put e ix v) a b (n.offset ix + 1 + putLen f.len v) = 0 := by
    rw [corrupt_other _ _ (hk1 _ (by omega)), p2]
  have h3 : corrupt (n.put e ix v) a b (n.offset ix + 2 + putLen f.len v)
      = xorAll (xor8 NVM_SUMINIT (putLen f.len v)) (v.take (putLen f.len v)) := by
    have hk := hk1 (putLen f.len v + 1) (by omega)
    have hadd : n.offset ix + 1 + ((putLen f.len v + 1 : Nat) : Int)
        = n.offset ix + 2 + putLen f.len v := by push_cast; ring
    rw [hadd] at hk
    rw [corrupt_other _ _ hk, p3]
  exact get_accept hf h0 (putLen_le _ _) h1 h2 h3

/-- A fault that raises the length byte: `get` either falls back or still yields the stored
string, since the terminator of the record ends whatever is read. -/
theorem fault_length_raised {n : Nvm} (e : Eeprom) {ix : Int} {f : NvmField} (v : List Byte)
    (hf : n.field ix = some f) (hz : ZeroFree v) (b : Byte)
    (hb : putLen f.len v < b.val) :
    n.getStr (corrupt (n.put e ix v) (n.offset ix) b) ix = cstr f.dft
    ∨ n.getStr (corrupt (n.put e ix v) (n.offset ix) b) ix = v.take (putLen f.len v) := by
  have hb256 := b.isLt
  obtain ⟨_, p1, p2, _⟩ := put_stored (n := n) e v hf (by omega)
  obtain ⟨hv, hfd⟩ := field_eq_some hf
  unfold Nvm.getStr
  rw [get_valid n _ ix hv, hfd]
  split
  · right
    have hoff : n._fieldstarts.getD ix.toNat 0 = n.offset ix := rfl
    rw [hoff, corrupt_same]
    have hrd : readBytes (corrupt (n.put e ix v) (n.offset ix) b) (n.offset ix + 1) b.val
        = readBytes (n.put e ix v) (n.offset ix + 1) b.val := by
      apply readBytes_congr
      intro j hj
      exact corrupt_other _ _ (by unfold wrapInt; omega)
    rw [hrd]
    have hsplit : b.val = putLen f.len v + ((b.val - putLen f.len v - 1) + 1) := by omega
    rw [hsplit, readBytes_append, p1]
    simp only [readBytes]
    rw [p2, List.append_assoc]
    exact cstr_append_zero (zeroFree_take hz _) _
  · left
    rw [cstr_strcpy]

/-- After `put`, one changed byte anywhere leaves `get` with the default or the stored
string. -/
theorem fault_anywhere {n : Nvm} (e : Eeprom) {ix : Int} {f : NvmField} (v : List Byte)
    (hf : n.field ix = some f) (h256 : f.len < 256) (hz : ZeroFree v) (a : Int) (b : Byte)
    (hne : b ≠ (n.put e ix v) a) :
    n.getStr (corrupt (n.put e ix v) a b) ix = cstr f.dft
    ∨ n.getStr (corrupt (n.put e ix v) a b) ix = v.take (putLen f.len v) := by
  have hL : putLen f.len v < 256 := Nat.lt_of_le_of_lt (putLen_le _ _) h256
  by_cases hout : ∀ k : Nat, k < putLen f.len v + 3 → wrapInt a ≠ wrapInt (n.offset ix + k)
  · right
    unfold Nvm.getStr
    rw [fault_elsewhere e v hf h256 a b hout]
    exact cstr_append_zero (zeroFree_take hz _) []
  · have hin : ∃ k : Nat, k < putLen f.len v + 3 ∧ wrapInt a = wrapInt (n.offset ix + k) := by
      by_contra hno
      exact hout (fun k hk hk2 => hno ⟨k, hk, hk2⟩)
    obtain ⟨k, hk, hak⟩ := hin
    rw [corrupt_congr _ hak]
    rw [app_congr _ hak] at hne
    cases k with
    | zero =>
      simp only [Nat.cast_zero, add_zero] at hne ⊢
      have p0 := (put_stored (n := n) e v hf hL).1
      rcases Nat.lt_trichotomy b.val (putLen f.len v) with h | h | h
      · left
        exact fault_length e v hf h256 hz b (Or.inl h)
      · exfalso
        apply hne
        rw [p0]
        apply Fin.ext
        rw [toByte_val_of_lt hL, h]
      · exact fault_length_raised e v hf hz b h
    | succ j =>
      left
      have hadd : n.offset ix + ((j + 1 : Nat) : Int) = n.offset ix + 1 + j := by
        push_cast
        ring
      rw [hadd] at hne ⊢
      exact fault_tail e v hf h256 j (by omega) b hne

/-! ## Independence of the fields -/

/-- The output of `get` depends only on the `len + 3` device bytes from the field start. -/
theorem get_congr {n : Nvm} {e1 e2 : Eeprom} {ix : Int} {f : NvmField}
    (hf : n.field ix = some f)
    (h : ∀ k : Nat, k < f.len + 3 → e1 (n.offset ix + k) = e2 (n.offset ix + k)) :
    n.get e1 ix = n.get e2 ix := by
  obtain ⟨hv, hfd⟩ := field_eq_some hf
  rw [get_valid n e1 ix hv, get_valid n e2 ix hv, hfd]
  have hoff : n._fieldstarts.getD ix.toNat 0 = n.offset ix := rfl
  rw [hoff]
  have h0 : e1 (n.offset ix) = e2 (n.offset ix) := by
    have := h 0 (by omega)
    simpa using this
  rw [h0]
  by_cases hL : (e2 (n.offset ix)).val ≤ f.len
  · have h1 : e1 (n.offset ix + 1 + (e2 (n.offset ix)).val)
        = e2 (n.offset ix + 1 + (e2 (n.offset ix)).val) := by
      have := h (1 + (e2 (n.offset ix)).val) (by omega)
      push_cast at this
      rw [← add_assoc] at this
      exact this
    have h2 : e1 (n.offset ix + 2 + (e2 (n.offset ix)).val)
        = e2 (n.offset ix + 2 + (e2 (n.offset ix)).val) := by
      have := h (2 + (e2 (n.offset ix)).val) (by omega)
      push_cast at this
      rw [← add_assoc] at this
      exact this
    have hr : ∀ m : Nat, m ≤ (e2 (n.offset ix)).val + 1 →
        readBytes e1 (n.offset ix + 1) m = readBytes e2 (n.offset ix + 1) m := by
      intro m hm
      apply readBytes_congr
      intro j hj
      have := h (1 + j) (by omega)
      push_cast at this
      rw [← add_assoc] at this
      exact this
    rw [h1, h2, hr _ (by omega), hr _ (le_refl _)]
  · simp only [hL, false_and, if_false]

/-- C19 (field independence), as amended: for every layout whose records fit the range of
`int` (the sum of `len + 3` over its fields is below 2^31), device content, valid index `ix`
with descriptor `f` and value `v`: `put(ix, v)` writes only `offset .. offset+L+2` with
`L = min (strlen v) f.len`; it changes no device byte outside `[offset ix, offset (ix+1))`;
and for every valid index `jx ≠ ix` the output of `get(jx)` is the same before and after
`put(ix, v)`. -/
theorem C19_field_independence (fields : List NvmField) (e : Eeprom) (ix : Int)
    (f : NvmField) (v : List Byte)
    (hfit : layoutSize fields < 2147483648)
    (hf : (Nvm.new fields).field ix = some f) :
    (∀ x : Int,
        (x < (Nvm.new fields).offset ix
          ∨ (Nvm.new fields).offset ix + (min (strlen v) f.len + 3 : Nat) ≤ x) →
        ((Nvm.new fields).put e ix v).cell x = e.cell x)
    ∧ (∀ x : Int,
        ¬ ((Nvm.new fields).offset ix ≤ x ∧ x < (Nvm.new fields).offset (ix + 1)) →
        ((Nvm.new fields).put e ix v).cell x = e.cell x)
    ∧ (∀ (jx : Int) (g : NvmField), (Nvm.new fields).field jx = some g → jx ≠ ix →
        (Nvm.new fields).get ((Nvm.new fields).put e ix v) jx = (Nvm.new fields).get e jx) := by
  have hout : ∀ x : Int, -2147483648 ≤ x → x < 2147483648 →
      (x < (Nvm.new fields).offset ix
        ∨ (Nvm.new fields).offset ix + (putLen f.len v + 3 : Nat) ≤ x) →
      ((Nvm.new fields).put e ix v) x = e x :=
    fun x h0 h1 hx => put_outside_range fields hfit e v hf x h0 h1 hx
  have hple := putLen_le f.len v
  obtain ⟨i, hi, _⟩ := valid_index_eq hf
  subst hi
  obtain ⟨r1, r2, r3⟩ := region_bounds fields hfit i f hf
  refine ⟨?_, ?_, ?_⟩
  · rw [← putLen_eq_min]
    intro x hx
    exact put_cell_outside fields hfit e v hf x hx
  · intro x hx
    apply put_cell_outside fields hfit e v hf x
    rw [r1, r2, r3] at hx
    rw [r1]
    push_cast at hx ⊢
    omega
  · intro jx g hg hne
    obtain ⟨j, hj, _⟩ := valid_index_eq hg
    subst hj
    obtain ⟨q1, q2, q3⟩ := region_bounds fields hfit j g hg
    obtain ⟨g0, g1⟩ := region_in_range fields hfit j g hg
    have hij : i ≠ j := fun h => hne (by rw [h])
    apply get_congr hg
    intro k hk
    rw [q1] at g0 g1
    push_cast at g1
    apply hout
    · rw [q1]; omega
    · rw [q1]; omega
    · rw [r1, q1]
      rcases Nat.lt_or_gt_of_ne hij with h | h
      · have := sizeUpTo_mono fields (j := i + 1) (k := j) (by omega)
        right
        push_cast
        omega
      · have := sizeUpTo_mono fields (j := j + 1) (k := i) (by omega)
        left
        omega

/-- Witness of C19: on the usage example, storing "MyWifi" in "ssid" leaves the output of
`get` for "password" as it was. -/
theorem C19_field_independence_witness :
    (Nvm.new wifiFields).get ((Nvm.new wifiFields).put staleDevice 0 (bytes "MyWifi")) 1
      = (Nvm.new wifiFields).get staleDevice 1 :=
  (C19_field_independence wifiFields staleDevice 0
    { name := some (bytes "ssid"), dft := [], len := 32 } (bytes "MyWifi") (by decide)
    (by decide)).2.2 1 { name := some (bytes "password"), dft := [], len := 32 }
    (by decide) (by decide)

/-- C19 as stated fails: in a layout whose first field has length 2^32 - 3 the start table
is `[0, 0, 8]`, so the region `[offset 0, offset 1)` of field 0 is empty and field 1 starts
at 0 as well.  On the all-0x00 device `put(0, "a")` changes the byte at address 0, outside
that region, and changes the string of `get(1)` from the default "" to "a". -/
theorem C19_counterexample :
    (Nvm.new overlapFields).field 0
        = some { name := some (bytes "a"), dft := [], len := 4294967293 }
    ∧ (Nvm.new overlapFields).field 1 = some { name := some (bytes "b"), dft := [], len := 5 }
    ∧ (Nvm.new overlapFields).offset 0 = 0 ∧ (Nvm.new overlapFields).offset 1 = 0
    ∧ ((Nvm.new overlapFields).put erased00 0 (bytes "a")) 0 ≠ erased00 0
    ∧ (Nvm.new overlapFields).getStr erased00 1 = []
    ∧ (Nvm.new overlapFields).getStr ((Nvm.new overlapFields).put erased00 0 (bytes "a")) 1
        = bytes "a" := by
  decide

/-- C20 (no wrong value after a single-byte fault): for a layout whose fields all have
`len ≤ 64`, any prior device content, a valid index `ix` with descriptor `f` and a zero-free
value `v`: after `put(ix, v)`, changing any one device byte to another value (at any
address, so in particular anywhere in `[offset ix, offset (ix+1))`) makes `get(ix)` leave,
read as a zero-terminated string, either the default of the field or `v` truncated to
`f.len`, never another string. -/
theorem C20_single_fault (fields : List NvmField) (e : Eeprom) (ix : Int)
    (f : NvmField) (v : List Byte) (a : Int) (b : Byte)
    (hb : LenBounded (Nvm.new fields))
    (hf : (Nvm.new fields).field ix = some f)
    (hz : ZeroFree v)
    (hne : b ≠ ((Nvm.new fields).put e ix v) a) :
    (Nvm.new fields).getStr (corrupt ((Nvm.new fields).put e ix v) a b) ix = cstr f.dft
    ∨ (Nvm.new fields).getStr (corrupt ((Nvm.new fields).put e ix v) a b) ix = v.take f.len := by
  have h64 := len_le_of_lenBounded hb hf
  have hL : putLen f.len v = min v.length f.len := by
    rw [putLen_eq_min, strlen_of_zeroFree hz]
  have htake : v.take (putLen f.len v) = v.take f.len := by
    rw [hL]
    rcases Nat.le_total v.length f.len with h | h
    · rw [Nat.min_eq_left h, List.take_of_length_le (le_refl _), List.take_of_length_le h]
    · rw [Nat.min_eq_right h]
  rw [← htake]
  exact fault_anywhere e v hf (by omega) hz a b hne

/-- Witness of C20: on the stale device, after `put(0, "a")` in the field "host" the length
byte at address 0 changed from 1 to 3 leaves `get(0)` with the default or with "a". -/
theorem C20_single_fault_witness :
    (Nvm.new sampleFields).getStr
        (corrupt ((Nvm.new sampleFields).put staleDevice 0 (bytes "a")) 0 3) 0
      = cstr (bytes "nvm")
    ∨ (Nvm.new sampleFields).getStr
        (corrupt ((Nvm.new sampleFields).put staleDevice 0 (bytes "a")) 0 3) 0
      = (bytes "a").take 8 :=
  C20_single_fault sampleFields staleDevice 0
    { name := some (bytes "host"), dft := bytes "nvm", len := 8 } (bytes "a") 0 3
    (by decide) (by decide) (by decide) (by decide)

/-! ## The dump -/

theorem specCells_length (fields : List NvmField) (e : Eeprom) (a m : Nat) :
    (specCells fields e a m).length = m := by
  induction m generalizing a with
  | zero => rfl
  | succ m ih => simp [specCells, ih]

theorem specCells_getElem? (fields : List NvmField) (e : Eeprom) (a m x : Nat) (hx : x < m) :
    (specCells fields e a m)[x]? = some (specCell fields e (a + x)) := by
  induction m generalizing a x with
  | zero => omega
  | succ m ih =>
    cases x with
    | zero => simp [specCells]
    | succ x =>
      simp only [specCells, List.getElem?_cons_succ]
      rw [ih (a + 1) x (by omega)]
      congr 2
      omega

theorem fieldStartsFrom_length (cnt : Nat) (start : Int) (fields : List NvmField) :
    (fieldStartsFrom cnt start fields).length = cnt := by
  induction cnt generalizing start fields with
  | zero => rfl
  | succ cnt ih => simp [fieldStartsFrom, ih]

theorem headD_drop (T : List Int) (si : Nat) : (T.drop si).headD 0 = T.getD si 0 := by
  induction T generalizing si with
  | nil => simp
  | cons t T ih =>
    cases si with
    | zero => simp
    | succ si => simp

theorem tail_drop (T : List Int) (si : Nat) : (T.drop si).tail = T.drop (si + 1) := by
  induction T generalizing si with
  | nil => simp
  | cons t T ih =>
    cases si with
    | zero => simp
    | succ si => simp

/-- The table entry seen through the pointer `start`, without wrap-around. -/
theorem start_entry (fields : List NvmField) (hfit : layoutSize fields < 2147483648)
    (si : Nat) (hsi : si ≤ countFields fields) :
    (((Nvm.new fields)._fieldstarts).drop si).headD 0 = (sizeUpTo fields si : Int) := by
  rw [headD_drop]
  have := offset_eq_sizeUpTo fields hfit si hsi
  unfold Nvm.offset at this
  simpa using this

theorem sizeUpTo_lt_of_lt (fields : List NvmField) {i j : Nat} (h : i < j)
    (hj : j ≤ countFields fields) : sizeUpTo fields i < sizeUpTo fields j :=
  sizeUpTo_strictMono fields h (Nat.le_trans hj (countFields_le_length fields))

/-- Under the loop relation, the address `a` is a field start exactly when it is the start
of field `si`. -/
theorem isStart_iff (fields : List NvmField) {a si : Nat} (hinv : DumpInv fields a si)
    (ha : a < layoutSize fields) :
    (∃ i : Nat, i < countFields fields ∧ sizeUpTo fields i = a) ↔ sizeUpTo fields si = a := by
  obtain ⟨h1, h2, h3⟩ := hinv
  constructor
  · rintro ⟨i, hi, hia⟩
    by_cases hlt : i < si
    · have := h2 i hlt
      omega
    · by_cases heq : i = si
      · rw [← heq]; exact hia
      · have := sizeUpTo_lt_of_lt fields (i := si) (j := i) (by omega) (by omega)
        omega
  · intro h
    refine ⟨si, ?_, h⟩
    by_cases hc : si = countFields fields
    · unfold layoutSize at ha
      rw [hc] at h
      omega
    · omega

/-- The first inner loop of `dump` in closed form: from address `a` it shows the
`min rem (size - a)` data cells that fit the line. -/
theorem dumpData_spec (fields : List NvmField) (hfit : layoutSize fields < 2147483648)
    (e : Eeprom) (rem a si : Nat) (nm : Option (List Byte)) (cells : List DumpCell)
    (hinv : DumpInv fields a si) :
    ∃ si' : Nat,
      dumpData (Nvm.new fields) e (layoutSize fields) rem
          { start := ((Nvm.new fields)._fieldstarts).drop si, address := (a : Int),
            ix := si, name := nm } cells
        = ({ start := ((Nvm.new fields)._fieldstarts).drop si',
             address := ((a + min rem (layoutSize fields - a) : Nat) : Int),
             ix := si',
             name := if si < si' then (fields.getD (si' - 1) default).name else nm },
           cells ++ specCells fields e a (min rem (layoutSize fields - a)),
           rem - min rem (layoutSize fields - a))
      ∧ si ≤ si' ∧ DumpInv fields (a + min rem (layoutSize fields - a)) si' := by
  induction rem generalizing a si nm cells with
  | zero =>
    refine ⟨si, ?_, le_refl _, ?_⟩
    · simp [dumpData, specCells]
    · simpa using hinv
  | succ rem ih =>
    by_cases ha : a < layoutSize fields
    · have haI : (a : Int) < (layoutSize fields : Int) := by exact_mod_cast ha
      have hmin : min (rem + 1) (layoutSize fields - a)
          = min rem (layoutSize fields - (a + 1)) + 1 := by omega
      have hentry := start_entry fields hfit si hinv.1
      have hstart := isStart_iff fields hinv ha
      have hfl : (Nvm.new fields)._fields = fields := rfl
      by_cases hit : sizeUpTo fields si = a
      · have hsi : si < countFields fields := by
          obtain ⟨i, hi, hia⟩ := hstart.mpr hit
          by_cases hc : si = countFields fields
          · unfold layoutSize at ha
            rw [hc] at hit
            omega
          · have := hinv.1
            omega
        have hinv2 : DumpInv fields (a + 1) (si + 1) := by
          refine ⟨by omega, ?_, ?_⟩
          · intro i hi
            by_cases hlt : i < si
            · have := hinv.2.1 i hlt
              omega
            · have : i = si := by omega
              rw [this, hit]
              omega
          · have := sizeUpTo_lt_of_lt fields (i := si) (j := si + 1) (by omega) (by omega)
            omega
        obtain ⟨si', heq, hle, hinv3⟩ := ih (a + 1) (si + 1)
          ((fields.getD si default).name)
          (cells ++ [{ sep := '|', value := some (e.read (a : Int)) }]) hinv2
        refine ⟨si', ?_, by omega, ?_⟩
        · simp only [dumpData]
          rw [if_pos haI, if_pos (by rw [hentry, hit])]
          rw [tail_drop, hfl]
          have hcast : wrapInt ((a : Int) + 1) = ((a + 1 : Nat) : Int) := by
            rw [wrapInt_of_fits (by omega) (by omega)]
            push_cast
            rfl
          rw [hcast, heq, hmin]
          have hname : (if si + 1 < si' then (fields.getD (si' - 1) default).name
              else (fields.getD si default).name)
              = (if si < si' then (fields.getD (si' - 1) default).name else nm) := by
            rw [if_pos (by omega : si < si')]
            by_cases h2 : si + 1 < si'
            · rw [if_pos h2]
            · rw [if_neg h2]
              have : si' - 1 = si := by omega
              rw [this]
          have hcell : ({ sep := '|', value := some (e.read (a : Int)) } : DumpCell)
              = specCell fields e a := by
            unfold specCell
            rw [if_pos (hstart.mpr hit)]
            rfl
          rw [hname, hcell]
          simp only [specCells, List.append_assoc, List.singleton_append]
          have h1 : a + 1 + min rem (layoutSize fields - (a + 1))
              = a + (min rem (layoutSize fields - (a + 1)) + 1) := by omega
          have h2 : rem + 1 - (min rem (layoutSize fields - (a + 1)) + 1)
              = rem - min rem (layoutSize fields - (a + 1)) := by omega
          rw [h1, h2]
        · rw [hmin]
          have h1 : a + (min rem (layoutSize fields - (a + 1)) + 1)
              = a + 1 + min rem (layoutSize fields - (a + 1)) := by omega
          rw [h1]
          exact hinv3
      · have hinv2 : DumpInv fields (a + 1) si := by
          refine ⟨hinv.1, ?_, ?_⟩
          · intro i hi
            have := hinv.2.1 i hi
            omega
          · have := hinv.2.2
            omega
        obtain ⟨si', heq, hle, hinv3⟩ := ih (a + 1) si nm
          (cells ++ [{ sep := ' ', value := some (e.read (a : Int)) }]) hinv2
        refine ⟨si', ?_, hle, ?_⟩
        · simp only [dumpData]
          have hne : ¬ ((sizeUpTo fields si : Int) = (a : Int)) := by
            intro h
            exact hit (by exact_mod_cast h)
          rw [if_pos haI, hentry, if_neg hne]
          have hcast : wrapInt ((a : Int) + 1) = ((a + 1 : Nat) : Int) := by
            rw [wrapInt_of_fits (by omega) (by omega)]
            push_cast
            rfl
          rw [hcast, heq, hmin]
          have hcell : ({ sep := ' ', value := some (e.read (a : Int)) } : DumpCell)
              = specCell fields e a := by
            unfold specCell
            rw [if_neg (fun h => hit (hstart.mp h))]
            rfl
          rw [hcell]
          simp only [specCells, List.append_assoc, List.singleton_append]
          have h1 : a + 1 + min rem (layoutSize fields - (a + 1))
              = a + (min rem (layoutSize fields - (a + 1)) + 1) := by omega
          have h2 : rem + 1 - (min rem (layoutSize fields - (a + 1)) + 1)
              = rem - min rem (layoutSize fields - (a + 1)) := by omega
          rw [h1, h2]
        · rw [hmin]
          have h1 : a + (min rem (layoutSize fields - (a + 1)) + 1)
              = a + 1 + min rem (layoutSize fields - (a + 1)) := by omega
          rw [h1]
          exact hinv3
    · have haI : ¬ ((a : Int) < (layoutSize fields : Int)) := by
        intro h
        exact ha (by exact_mod_cast h)
      have hmin : min (rem + 1) (layoutSize fields - a) = 0 := by omega
      refine ⟨si, ?_, le_refl _, ?_⟩
      · simp only [dumpData]
        rw [if_neg haI, hmin]
        simp [specCells]
      · rw [hmin]
        simpa using hinv

/-- The second inner loop of `dump` in closed form: `rem` padding cells, as long as the
address stays in the range of `int`. -/
theorem dumpPad_spec (rem : Nat) (st : List Int) (a : Int) (si : Nat)
    (nm : Option (List Byte)) (cells : List DumpCell)
    (h0 : 0 ≤ a) (h1 : a + rem < 2147483648) :
    ∃ pad : List DumpCell,
      dumpPad rem { start := st, address := a, ix := si, name := nm } cells
        = ({ start := st, address := a + rem, ix := si, name := nm }, cells ++ pad)
      ∧ pad.length = rem ∧ ∀ c ∈ pad, c.value = none := by
  induction rem generalizing a cells with
  | zero => exact ⟨[], by simp [dumpPad], rfl, by simp⟩
  | succ rem ih =>
    push_cast at h1
    obtain ⟨pad, heq, hlen, hnone⟩ := ih (a + 1)
      (cells ++ [{ sep := if st.headD 0 = a then '|' else ' ', value := none }])
      (by omega) (by omega)
    refine ⟨{ sep := if st.headD 0 = a then '|' else ' ', value := none } :: pad, ?_, ?_, ?_⟩
    · simp only [dumpPad]
      rw [wrapInt_of_fits (by omega) (by omega), heq]
      have h2 : a + 1 + (rem : Int) = a + ((rem + 1 : Nat) : Int) := by push_cast; ring
      rw [h2]
      simp
    · simp [hlen]
    · intro c hc
      rcases List.mem_cons.mp hc with h | h
      · rw [h]
      · exact hnone c h

/-- The fields that start on a line are those between the index at its begin and the
index at its end. -/
theorem starts_on_line_iff (fields : List NvmField) {a m si si' : Nat}
    (hinv : DumpInv fields a si) (hinv2 : DumpInv fields (a + m) si')
    (hm : m = min 16 (layoutSize fields - a)) (ha : a < layoutSize fields)
    (i : Nat) (hi : i < countFields fields) :
    (a ≤ sizeUpTo fields i ∧ sizeUpTo fields i < a + 16) ↔ (si ≤ i ∧ i < si') := by
  have hF : layoutSize fields = sizeUpTo fields (countFields fields) := rfl
  have hiF := sizeUpTo_lt_of_lt fields hi (le_refl _)
  constructor
  · rintro ⟨h1, h2⟩
    constructor
    · by_contra hlt
      have := hinv.2.1 i (by omega)
      omega
    · by_contra hge
      have h3 := sizeUpTo_mono fields (j := si') (k := i) (by omega)
      have h4 := hinv2.2.2
      omega
  · rintro ⟨h1, h2⟩
    constructor
    · have h3 := sizeUpTo_mono fields (j := si) (k := i) h1
      have h4 := hinv.2.2
      omega
    · have := hinv2.2.1 i h2
      omega

/-- One line of the dump, built from the results of the two inner loops. -/
theorem line_ok (fields : List NvmField) (e : Eeprom) (lead : List Byte) {k m si si' : Nat}
    (hinv : DumpInv fields (16 * k) si) (hinv2 : DumpInv fields (16 * k + m) si')
    (hle : si ≤ si')
    (hm : m = min 16 (layoutSize fields - 16 * k)) (ha : 16 * k < layoutSize fields)
    (pad : List DumpCell) (hpad : pad.length = 16 - m) (hnone : ∀ c ∈ pad, c.value = none) :
    LineOk fields e lead k
      { lead := lead, address := ((16 * k : Nat) : Int),
        cells := specCells fields e (16 * k) m ++ pad,
        name := if si < si' then (fields.getD (si' - 1) default).name else none } := by
  have hiff := starts_on_line_iff fields hinv hinv2 hm ha
  refine ⟨rfl, rfl, ?_, ?_, ?_, ?_, ?_⟩
  · simp only [List.length_append, specCells_length, hpad]
    omega
  · intro x hx hxF
    have hxm : x < m := by omega
    simp only []
    rw [List.getElem?_append_left (by rw [specCells_length]; exact hxm)]
    exact specCells_getElem? fields e _ _ _ hxm
  · intro x hx hxF
    have hxm : m ≤ x := by omega
    simp only []
    rw [List.getElem?_append_right (by rw [specCells_length]; exact hxm), specCells_length]
    have hlt : x - m < pad.length := by omega
    refine ⟨pad[x - m], List.getElem?_eq_getElem hlt, hnone _ (List.getElem_mem _)⟩
  · intro i hi h1 h2 hlast
    obtain ⟨h3, h4⟩ := (hiff i hi).mp ⟨h1, h2⟩
    simp only []
    rw [if_pos (by omega)]
    have : si' - 1 = i := by
      by_contra hne
      have hj : i + 1 < si' := by omega
      have hjc : i + 1 < countFields fields := by have := hinv2.1; omega
      have h5 := ((hiff (i + 1) hjc).mpr ⟨by omega, hj⟩).2
      have h6 := hlast (i + 1) hjc (by omega)
      omega
    rw [this]
  · intro hno
    simp only []
    by_cases hlt : si < si'
    · exfalso
      have hsc : si < countFields fields := by have := hinv2.1; omega
      exact hno si hsc ((hiff si hsc).mpr ⟨le_refl _, hlt⟩)
    · rw [if_neg hlt]

/-- The outer loop of `dump` in closed form: with enough fuel it produces the remaining
lines, each as described by `LineOk`. -/
theorem dumpLines_spec (fields : List NvmField)
    (hfit15 : layoutSize fields + 15 < 2147483648)
    (e : Eeprom) (lead : List Byte) (fuel k si : Nat) (out : List DumpLine)
    (hinv : 16 * k < layoutSize fields → DumpInv fields (16 * k) si)
    (hfuel : layoutSize fields ≤ 16 * k + fuel) :
    ∃ ls : List DumpLine,
      dumpLines (Nvm.new fields) e lead (layoutSize fields) fuel
          { start := ((Nvm.new fields)._fieldstarts).drop si, address := ((16 * k : Nat) : Int),
            ix := si, name := none } out
        = some (out ++ ls)
      ∧ ls.length = (layoutSize fields + 15) / 16 - k
      ∧ ∀ j : Nat, ∀ hj : j < ls.length, LineOk fields e lead (k + j) (ls.get ⟨j, hj⟩) := by
  induction fuel generalizing k si out with
  | zero =>
    have hge : ¬ (((16 * k : Nat) : Int) < (layoutSize fields : Int)) := by
      intro h
      have : 16 * k < layoutSize fields := by exact_mod_cast h
      omega
    refine ⟨[], ?_, ?_, ?_⟩
    · unfold dumpLines
      rw [if_neg hge]
      simp
    · simp only [List.length_nil]
      omega
    · intro j hj
      simp at hj
  | succ fuel ih =>
    by_cases ha : 16 * k < layoutSize fields
    · have haI : ((16 * k : Nat) : Int) < (layoutSize fields : Int) := by exact_mod_cast ha
      have hfit : layoutSize fields < 2147483648 := by omega
      have hinv1 := hinv ha
      obtain ⟨si', hdata, hle, hinv2⟩ :=
        dumpData_spec fields hfit e 16 (16 * k) si none [] hinv1
      generalize hm : min 16 (layoutSize fields - 16 * k) = m at hdata hinv2
      obtain ⟨pad, hpadeq, hpadlen, hnone⟩ :=
        dumpPad_spec (16 - m) (((Nvm.new fields)._fieldstarts).drop si')
          (((16 * k + m : Nat) : Int)) si'
          (if si < si' then (fields.getD (si' - 1) default).name else none)
          ([] ++ specCells fields e (16 * k) m)
          (by omega) (by omega)
      have hline := line_ok fields e lead hinv1 hinv2 hle hm.symm ha pad hpadlen hnone
      have hnext : ((16 * k + m : Nat) : Int) + ((16 - m : Nat) : Int)
          = ((16 * (k + 1) : Nat) : Int) := by
        have : m ≤ 16 := by omega
        push_cast
        omega
      obtain ⟨ls, hls, hlen, hok⟩ := ih (k + 1) si'
        (out ++ [{ lead := lead, address := ((16 * k : Nat) : Int),
                   cells := specCells fields e (16 * k) m ++ pad,
                   name := if si < si' then (fields.getD (si' - 1) default).name else none }])
        (by
          intro h
          have hm16 : m = 16 := by omega
          have : 16 * k + m = 16 * (k + 1) := by omega
          rw [← this]
          exact hinv2)
        (by omega)
      refine ⟨{ lead := lead, address := ((16 * k : Nat) : Int),
                cells := specCells fields e (16 * k) m ++ pad,
                name := if si < si' then (fields.getD (si' - 1) default).name else none } :: ls,
        ?_, ?_, ?_⟩
      · unfold dumpLines
        rw [if_pos haI]
        simp only []
        rw [hdata]
        simp only []
        rw [hpadeq]
        simp only [List.nil_append]
        rw [hnext, hls]
        simp
      · simp only [List.length_cons, hlen]
        omega
      · intro j hj
        cases j with
        | zero => simpa using hline
        | succ j =>
          have := hok j (by simpa using hj)
          have hk : k + 1 + j = k + (j + 1) := by omega
          rw [hk] at this
          simpa using this
    · have hge : ¬ (((16 * k : Nat) : Int) < (layoutSize fields : Int)) := by
        intro h
        exact ha (by exact_mod_cast h)
      refine ⟨[], ?_, ?_, ?_⟩
      · unfold dumpLines
        rw [if_neg hge]
        simp
      · simp only [List.length_nil]
        omega
      · intro j hj
        simp at hj

/-- The dump of a layout without wrap-around: `(size + 15) / 16` lines, each as described
by `LineOk`. -/
theorem dump_spec (fields : List NvmField) (hfit15 : layoutSize fields + 15 < 2147483648)
    (e : Eeprom) (lead : Option (List Byte)) :
    ∃ ls : List DumpLine,
      (Nvm.new fields).dump e lead = some ls
      ∧ ls.length = (layoutSize fields + 15) / 16
      ∧ ∀ j : Nat, ∀ hj : j < ls.length,
          LineOk fields e (cstr (lead.getD [])) j (ls.get ⟨j, hj⟩) := by
  have hfit : layoutSize fields < 2147483648 := by omega
  have hF : ((Nvm.new fields)._fieldstarts).getD (Nvm.new fields)._fieldcount 0
      = (layoutSize fields : Int) := by
    have := offset_eq_sizeUpTo fields hfit (countFields fields) (le_refl _)
    unfold Nvm.offset at this
    simpa using this
  have hinv0 : DumpInv fields (16 * 0) 0 := by
    refine ⟨Nat.zero_le _, ?_, ?_⟩
    · intro i hi
      omega
    · simp [sizeUpTo_zero]
  obtain ⟨ls, hls, hlen, hok⟩ := dumpLines_spec fields hfit15 e (cstr (lead.getD []))
    (layoutSize fields) 0 0 [] (fun _ => hinv0) (by omega)
  refine ⟨ls, ?_, by simpa using hlen, ?_⟩
  · unfold Nvm.dump
    simp only []
    rw [hF]
    simpa using hls
  · intro j hj
    simpa using hok j hj

theorem isStart_cast (fields : List NvmField) (hfit : layoutSize fields < 2147483648)
    (a : Nat) :
    (∃ i : Nat, (i : Int) < (Nvm.new fields).count ∧ (Nvm.new fields).offset i = (a : Int))
      ↔ ∃ i : Nat, i < countFields fields ∧ sizeUpTo fields i = a := by
  have hc : (Nvm.new fields).count = (countFields fields : Int) := rfl
  constructor
  · rintro ⟨i, hi, hia⟩
    rw [hc] at hi
    have hi2 : i < countFields fields := by omega
    rw [offset_eq_sizeUpTo fields hfit i (by omega)] at hia
    exact ⟨i, hi2, by exact_mod_cast hia⟩
  · rintro ⟨i, hi, hia⟩
    refine ⟨i, by rw [hc]; omega, ?_⟩
    rw [offset_eq_sizeUpTo fields hfit i (by omega), hia]

/-- C17 (dump boundary markers), as amended: for every layout whose dump lines fit the
range of `int` (the sum of `len + 3` over its fields, plus 15, is below 2^31, so that
`offset count` is that sum and the address stays below 2^31 on the padding of the last
line) and every device content, `dump` prints `(offset count + 15) / 16` lines; line `k` is
labelled with the address `16 * k` and has 16 cells; the cell of an address
`a < offset count` (cell `a % 16` of line `a / 16`) shows the device byte at `a` and carries
the marker `|` if and only if `a = offset i` for some field index `i < count`; the cells
after `offset count - 1` on the last line are padding. -/
theorem C17_dump_markers (fields : List NvmField) (e : Eeprom) (lead : Option (List Byte))
    (hfit15 : layoutSize fields + 15 < 2147483648) :
    ∃ lines : List DumpLine,
      (Nvm.new fields).dump e lead = some lines
      ∧ (Nvm.new fields).offset (Nvm.new fields).count = (layoutSize fields : Int)
      ∧ lines.length = (layoutSize fields + 15) / 16
      ∧ (∀ k : Nat, ∀ hk : k < lines.length,
          (lines.get ⟨k, hk⟩).address = ((16 * k : Nat) : Int)
          ∧ (lines.get ⟨k, hk⟩).cells.length = 16)
      ∧ (∀ a : Nat, a < layoutSize fields →
          ∃ c : DumpCell, cellAt lines a = some c ∧ c.value = some (e.cell a)
            ∧ (c.sep = '|' ↔
                ∃ i : Nat, (i : Int) < (Nvm.new fields).count
                  ∧ (Nvm.new fields).offset i = (a : Int)))
      ∧ (∀ a : Nat, layoutSize fields ≤ a → a < 16 * lines.length →
          ∃ c : DumpCell, cellAt lines a = some c ∧ c.value = none) := by
  have hfit : layoutSize fields < 2147483648 := by omega
  obtain ⟨ls, hdump, hlen, hok⟩ := dump_spec fields hfit15 e lead
  have hline : ∀ a : Nat, a < 16 * ls.length →
      ∃ hk : a / 16 < ls.length, ls[a / 16]? = some (ls.get ⟨a / 16, hk⟩) := by
    intro a ha
    have hk : a / 16 < ls.length := by omega
    exact ⟨hk, List.getElem?_eq_getElem hk⟩
  refine ⟨ls, hdump, ?_, hlen, ?_, ?_, ?_⟩
  · exact offset_eq_sizeUpTo fields hfit (countFields fields) (le_refl _)
  · intro k hk
    exact ⟨(hok k hk).2.1, (hok k hk).2.2.1⟩
  · intro a ha
    obtain ⟨hk, hget⟩ := hline a (by omega)
    have hcell := (hok (a / 16) hk).2.2.2.1 (a % 16) (by omega) (by omega)
    have haddr : 16 * (a / 16) + a % 16 = a := by omega
    rw [haddr] at hcell
    refine ⟨specCell fields e a, ?_, ?_, ?_⟩
    · unfold cellAt
      rw [hget]
      exact hcell
    · show some (e (a : Int)) = some (e.cell a)
      rw [app_of_range e (by omega) (by omega)]
    · rw [isStart_cast fields hfit a]
      unfold specCell
      simp only []
      constructor
      · intro h
        by_contra hno
        rw [if_neg hno] at h
        revert h
        decide
      · intro h
        rw [if_pos h]
  · intro a haF ha
    obtain ⟨hk, hget⟩ := hline a ha
    obtain ⟨c, hc, hnone⟩ := (hok (a / 16) hk).2.2.2.2.1 (a % 16) (by omega) (by omega)
    refine ⟨c, ?_, hnone⟩
    unfold cellAt
    rw [hget]
    exact hc

/-- Witness of C17: the dump of the usage example (70 bytes) has five lines of 16 cells,
with markers at the addresses 0 and 35 only. -/
theorem C17_dump_markers_witness :
    ∃ lines : List DumpLine,
      (Nvm.new wifiFields).dump erasedFF none = some lines
      ∧ (Nvm.new wifiFields).offset (Nvm.new wifiFields).count = (layoutSize wifiFields : Int)
      ∧ lines.length = (layoutSize wifiFields + 15) / 16
      ∧ (∀ k : Nat, ∀ hk : k < lines.length,
          (lines.get ⟨k, hk⟩).address = ((16 * k : Nat) : Int)
          ∧ (lines.get ⟨k, hk⟩).cells.length = 16)
      ∧ (∀ a : Nat, a < layoutSize wifiFields →
          ∃ c : DumpCell, cellAt lines a = some c ∧ c.value = some (erasedFF.cell a)
            ∧ (c.sep = '|' ↔
                ∃ i : Nat, (i : Int) < (Nvm.new wifiFields).count
                  ∧ (Nvm.new wifiFields).offset i = (a : Int)))
      ∧ (∀ a : Nat, layoutSize wifiFields ≤ a → a < 16 * lines.length →
          ∃ c : DumpCell, cellAt lines a = some c ∧ c.value = none) :=
  C17_dump_markers wifiFields erasedFF none (by decide)

/-- C17 as stated fails: in the layout `oddFields` the second length makes the start table
wrap around to `[0, 13, 0, 5, 30]`.  The dump shows the addresses 0 .. 29; after the marker
at 13 the pointer `start` rests on the entry 0, which no later address equals, so the cell
of address 5 = `offset 3` carries no marker. -/
theorem C17_counterexample :
    (Nvm.new oddFields).count = 4
    ∧ (Nvm.new oddFields).offset 3 = 5
    ∧ (Nvm.new oddFields).offset 4 = 30
    ∧ ((Nvm.new oddFields).dump erased00 none).bind (fun ls => cellAt ls 5)
        = some { sep := ' ', value := some 0 } := by
  decide

/-- C18 (dump field-name annotation), as amended: for every layout whose dump lines fit
the range of `int` (the sum of `len + 3` over its fields, plus 15, is below 2^31) and every
device content, each line of the dump carries at most one annotation: when records start
on line `k` (at addresses `16 * k .. 16 * k + 15`), the name printed at the end of line `k`
is the name of the last field that starts there, and when no record starts on line `k`
nothing is printed.  So a field name is printed, on the line with the first byte of its
record, exactly when no later field starts on the same line. -/
theorem C18_dump_annotations (fields : List NvmField) (e : Eeprom) (lead : Option (List Byte))
    (hfit15 : layoutSize fields + 15 < 2147483648) :
    ∃ lines : List DumpLine,
      (Nvm.new fields).dump e lead = some lines
      ∧ lines.length = (layoutSize fields + 15) / 16
      ∧ ∀ k : Nat, ∀ hk : k < lines.length,
          (∀ (i : Nat) (f : NvmField), (Nvm.new fields).field i = some f →
            ((16 * k : Nat) : Int) ≤ (Nvm.new fields).offset i →
            (Nvm.new fields).offset i < ((16 * k + 16 : Nat) : Int) →
            (∀ j : Nat, (j : Int) < (Nvm.new fields).count → i < j →
              ((16 * k + 16 : Nat) : Int) ≤ (Nvm.new fields).offset j) →
            (lines.get ⟨k, hk⟩).name = f.name)
          ∧ ((∀ i : Nat, (i : Int) < (Nvm.new fields).count →
                ¬ (((16 * k : Nat) : Int) ≤ (Nvm.new fields).offset i
                  ∧ (Nvm.new fields).offset i < ((16 * k + 16 : Nat) : Int))) →
            (lines.get ⟨k, hk⟩).name = none) := by
  have hfit : layoutSize fields < 2147483648 := by omega
  obtain ⟨ls, hdump, hlen, hok⟩ := dump_spec fields hfit15 e lead
  have hc : (Nvm.new fields).count = (countFields fields : Int) := rfl
  have hoff : ∀ i : Nat, i < countFields fields →
      (Nvm.new fields).offset i = (sizeUpTo fields i : Int) :=
    fun i hi => offset_eq_sizeUpTo fields hfit i (by omega)
  refine ⟨ls, hdump, hlen, ?_⟩
  intro k hk
  obtain ⟨_, _, _, _, _, hname, hnone⟩ := hok k hk
  refine ⟨?_, ?_⟩
  · intro i f hf h1 h2 hlast
    obtain ⟨hi, hfd⟩ := field_natCast hf
    rw [hoff i hi] at h1 h2
    rw [← hfd]
    apply hname i hi (by exact_mod_cast h1) (by exact_mod_cast h2)
    intro j hj hij
    have := hlast j (by rw [hc]; omega) hij
    rw [hoff j hj] at this
    exact_mod_cast this
  · intro hno
    apply hnone
    intro i hi hin
    apply hno i (by rw [hc]; omega)
    rw [hoff i hi]
    exact ⟨by exact_mod_cast hin.1, by exact_mod_cast hin.2⟩

/-- Witness of C18: in the dump of `sampleFields` only two lines are printed. -/
theorem C18_dump_annotations_witness :
    ∃ lines : List DumpLine,
      (Nvm.new sampleFields).dump erased00 none = some lines
      ∧ lines.length = (layoutSize sampleFields + 15) / 16
      ∧ ∀ k : Nat, ∀ hk : k < lines.length,
          (∀ (i : Nat) (f : NvmField), (Nvm.new sampleFields).field i = some f →
            ((16 * k : Nat) : Int) ≤ (Nvm.new sampleFields).offset i →
            (Nvm.new sampleFields).offset i < ((16 * k + 16 : Nat) : Int) →
            (∀ j : Nat, (j : Int) < (Nvm.new sampleFields).count → i < j →
              ((16 * k + 16 : Nat) : Int) ≤ (Nvm.new sampleFields).offset j) →
            (lines.get ⟨k, hk⟩).name = f.name)
          ∧ ((∀ i : Nat, (i : Int) < (Nvm.new sampleFields).count →
                ¬ (((16 * k : Nat) : Int) ≤ (Nvm.new sampleFields).offset i
                  ∧ (Nvm.new sampleFields).offset i < ((16 * k + 16 : Nat) : Int))) →
            (lines.get ⟨k, hk⟩).name = none) :=
  C18_dump_annotations sampleFields erased00 none (by decide)

/-- C18 as stated fails: in `sampleFields` the records of "host" (address 0) and "port"
(address 11) both start on line 0.  The dump has two lines; line 0 is annotated with "port"
only and line 1 with nothing, so the name "host" is not printed at all. -/
theorem C18_counterexample :
    (Nvm.new sampleFields).offset 0 = 0 ∧ (Nvm.new sampleFields).offset 1 = 11
    ∧ (Nvm.new sampleFields).count = 2
    ∧ ((Nvm.new sampleFields).dump erased00 none).map (fun ls => ls.map (fun l => l.name))
        = some [some (bytes "port"), none] := by
  decide

end NvmModel
